import Mathlib

/-!
Verification of the build-pipeline script (`src/index.ts`) of the repository:
a build tool that discovers `.js` files, minifies/obfuscates them into a
sibling `build/` directory, and rewrites path references in the
`fxmanifest.lua` manifest and in discovered HTML files.

Modelling conventions (shallow embedding):
* File-system paths are lists of path components (`List String`).  The
  project root (`__dirname` in the source) is passed explicitly where the
  source uses it; an absolute path is `root ++ relativeComponents`.  On the
  POSIX systems the tool targets, `path.join` appends components,
  `path.dirname` drops the last component, `path.basename` takes it, and
  `path.relative(root, root ++ p)` returns `p`; the `.replace(/\\/g, '/')`
  normalisation is the identity there, and rendering a component list with
  `/` separators models the normalised string form.
* Text being rewritten is `List Char`.  The manifest/HTML rewriting uses
  JavaScript `String.replace` with a global regex whose only
  metacharacters are the two `['"]` quote classes (the path itself is
  escaped with `replace(/[.*+?^${}()|[\]\\]/g, '\\$&')`, so it matches
  literally).  Such a replace is the left-to-right scan implemented by
  `scanRepl` below: at each position try the pattern
  `pre ++ quote ++ mid ++ quote`; on a match emit the replacement and
  continue after the match, otherwise keep the character.  (Replacement
  strings are modelled literally: the built paths the program produces are
  path joins and do not use `$`-escape sequences of `String.replace`.)
* Fallible file-system and transform steps are modelled with `Except`;
  the `try/catch` in `buildFile` becomes `Except.toOption`.
-/

/-- A character accepted by the `['"]` character class of the rewrite
regexes in `updateManifest` and `updateHtmlFiles`. -/
def isQuote (c : Char) : Bool := c = '\'' || c = '"'

/-- No character of the list is a quote character. -/
def noQuote (l : List Char) : Bool := l.all (fun c => !isQuote c)

/-- Strip a literal prefix: `splitPre p s = some t` iff `s = p ++ t`. -/
def splitPre : List Char → List Char → Option (List Char)
  | [], s => some s
  | _ :: _, [] => none
  | c :: p, d :: s => if c = d then splitPre p s else none

/-- Try the regex `pre["]mid["]` (with `["]` the quote class) at the front
of `s`; on success return the text after the match.  This is the anchored
match step of the JavaScript regexes
`new RegExp(`['"]${escaped}['"]`, 'g')` (with `pre = []`) and
`new RegExp(`src=["']${escaped}["']`, 'g')` (with `pre = "src="`). -/
def matchAt (pre mid s : List Char) : Option (List Char) :=
  match splitPre pre s with
  | none => none
  | some [] => none
  | some (q1 :: t1) =>
    if isQuote q1 then
      match splitPre mid t1 with
      | none => none
      | some [] => none
      | some (q2 :: rest) => if isQuote q2 then some rest else none
    else none

/-- The text matched by a successful `matchAt pre mid`: the literal
prefix, an opening quote, the literal middle, and a closing quote. -/
def matchStr (pre mid : List Char) (q1 q2 : Char) : List Char :=
  pre ++ q1 :: mid ++ [q2]


/-- Fuel-indexed implementation of the global-replace scan; a match
consumes at least one character, so fuel `s.length` always suffices. -/
def scanReplAux (pre mid R : List Char) : Nat → List Char → List Char
  | _, [] => []
  | 0, s => s
  | fuel + 1, c :: s =>
    match matchAt pre mid (c :: s) with
    | some rest => R ++ scanReplAux pre mid R fuel rest
    | none => c :: scanReplAux pre mid R fuel s

/-- Global regex replace, as performed by JavaScript
`text.replace(regexp, replacement)` with a `g`-flag regex of the shape
`pre["]mid["]`: scan left to right, replace each (leftmost,
non-overlapping) match by `R`, keep every other character. -/
def scanRepl (pre mid R s : List Char) : List Char :=
  scanReplAux pre mid R s.length s

/-- Whether the regex `pre["]mid["]` matches anywhere in the text; this is
what `regexp.test(text)` computes for those regexes. -/
def hasMatch (pre mid : List Char) : List Char → Bool
  | [] => false
  | c :: s => (matchAt pre mid (c :: s)).isSome || hasMatch pre mid s

/-- Whether `u` is a (literal) prefix of `v`. -/
def prefxB : List Char → List Char → Bool
  | [], _ => true
  | _ :: _, [] => false
  | a :: u, b :: v => a = b && prefxB u v

/-- Whether `u` is a (literal) suffix of `v`. -/
def sufxB (u v : List Char) : Bool := prefxB u.reverse v.reverse

/-- JavaScript `s.startsWith(p)` on the character lists of the strings. -/
def strStartsWith (s p : String) : Bool := prefxB p.data s.data

/-- JavaScript `s.endsWith(p)` on the character lists of the strings. -/
def strEndsWith (s p : String) : Bool := sufxB p.data s.data

/-! ### Paths -/

/-- Render a component list in the normalised (forward-slash) string form
produced by `path.relative(...).replace(/\\/g, '/')`. -/
def renderPath : List String → String
  | [] => ""
  | [p] => p
  | p :: ps => p ++ "/" ++ renderPath ps

/-- Split a normalised path string at `/` separators, accumulating the
current component in reverse. -/
def splitCompsAux : List Char → List Char → List String
  | [], acc => [String.mk acc.reverse]
  | c :: rest, acc =>
    if c = '/' then String.mk acc.reverse :: splitCompsAux rest []
    else splitCompsAux rest (c :: acc)

/-- Split a normalised path string back into components
(`path.join(__dirname, p)` in the source first splits `p` at its
separators). -/
def pathComponents (s : String) : List String := splitCompsAux s.data []

/-- Model of `path.relative from to` on component lists: strip the common prefix,
then climb with `..` segments and descend into the remainder. -/
def relativeP : List String → List String → List String
  | [], t => t
  | f, [] => f.map fun _ => ".."
  | a :: f, b :: t =>
    if a = b then relativeP f t else (a :: f).map (fun _ => "..") ++ b :: t


/-! ### Repository constants (`src/index.ts`, lines 6-17) -/

/-- File paths (relative to the project root) skipped by discovery. -/
def IGNORE_FILE_PATHS : List String := ["build.ts", "build.js", "client/bridge.js"]

/-- Directory names pruned by discovery. -/
def IGNORE_DIRS : List String := ["node_modules", "build"]

/-- The well-known manifest file name at the project root. -/
def MANIFEST_FILE : String := "fxmanifest.lua"

/-- The pairing of a source path and its built output path, both relative
to the project root with forward-slash separators (lines 19-22). -/
structure BuildResult where
  originalPath : String
  builtPath : String
deriving DecidableEq, Repr

/-! ### shouldIgnoreFile and findJsFiles (lines 24-49) -/

/-- Model of `shouldIgnoreFile` on the root-relative components of a file path:
the normalised relative path must equal an entry of `IGNORE_FILE_PATHS`
exactly (the entries contain no backslashes, so normalising them is the
identity). -/
def shouldIgnoreFile (relPath : List String) : Bool :=
  IGNORE_FILE_PATHS.any fun ignorePath => renderPath relPath = ignorePath

/-- A directory tree entry as seen by the traversal: `fs.statSync`
classifies each name as a directory (with its own entries) or a file. -/
inductive FsEntry where
  | file : String → FsEntry
  | dir : String → List FsEntry → FsEntry

/-- Model of `findJsFiles` (lines 32-49) on the entry list of the directory at
root-relative components `rel`: depth-first; a subdirectory is traversed
unless its name starts with `.` or is in `IGNORE_DIRS`; a file is
collected when its name ends in `.js` and `shouldIgnoreFile` rejects it.
Returned paths are root-relative component lists. -/
def findJsFiles (rel : List String) : List FsEntry → List (List String)
  | [] => []
  | .file name :: es =>
    (if strEndsWith name ".js" && !shouldIgnoreFile (rel ++ [name]) then
      [rel ++ [name]]
    else []) ++ findJsFiles rel es
  | .dir name sub :: es =>
    (if !strStartsWith name "." && !IGNORE_DIRS.contains name then
      findJsFiles (rel ++ [name]) sub
    else []) ++ findJsFiles rel es

/-! ### Fallible traversal (claim C5)

`findJsFiles` performs `fs.readdirSync` with no error handling: a missing
or non-directory root raises (`ENOENT`/`ENOTDIR`), and a directory whose
listing fails raises its I/O error; nothing is caught. -/

/-- Errors of the file-system calls used by the traversal. -/
inductive FsError where
  | enoent : FsError
  | enotdir : FsError
  | other : String → FsError
deriving DecidableEq, Repr

/-- The spec's `NotFoundError` class: the errors `readdir` raises when the
target does not exist or is not a directory. -/
def FsError.isNotFound : FsError → Bool
  | .enoent => true
  | .enotdir => true
  | .other _ => false

/-- A file-system node for the fallible traversal: a plain file, a
readable directory, or a directory whose `readdirSync` fails with an I/O
error. -/
inductive FsNode where
  | file : FsNode
  | dir : List (String × FsNode) → FsNode
  | errDir : String → FsNode

/-- Model of `fs.readdirSync` on a looked-up node (`none` = path does not exist). -/
def readdirE : Option FsNode → Except FsError (List (String × FsNode))
  | none => .error .enoent
  | some .file => .error .enotdir
  | some (.errDir msg) => .error (.other msg)
  | some (.dir entries) => .ok entries

mutual

/-- The fallible `findJsFiles` on a node: list the directory, then walk
its entries; every error propagates. -/
def findJsFilesE (rel : List String) (n : FsNode) :
    Except FsError (List (List String)) :=
  match n with
  | .file => .error .enotdir
  | .errDir msg => .error (.other msg)
  | .dir entries => goEntriesE rel entries
termination_by sizeOf n
decreasing_by all_goals (simp_wf; try omega)

/-- Walk the entries of one directory, keeping the source's order:
each entry's contribution is emitted before the rest of the list. -/
def goEntriesE (rel : List String) :
    List (String × FsNode) → Except FsError (List (List String))
  | [] => .ok []
  | (name, .file) :: es =>
    match goEntriesE rel es with
    | .error e => .error e
    | .ok r =>
      .ok ((if strEndsWith name ".js" && !shouldIgnoreFile (rel ++ [name]) then
        [rel ++ [name]] else []) ++ r)
  | (name, .dir sub) :: es =>
    if !strStartsWith name "." && !IGNORE_DIRS.contains name then
      match findJsFilesE (rel ++ [name]) (.dir sub) with
      | .error e => .error e
      | .ok found =>
        match goEntriesE rel es with
        | .error e => .error e
        | .ok r => .ok (found ++ r)
    else goEntriesE rel es
  | (name, .errDir msg) :: es =>
    if !strStartsWith name "." && !IGNORE_DIRS.contains name then
      match findJsFilesE (rel ++ [name]) (.errDir msg) with
      | .error e => .error e
      | .ok found =>
        match goEntriesE rel es with
        | .error e => .error e
        | .ok r => .ok (found ++ r)
    else goEntriesE rel es
termination_by es => sizeOf es
decreasing_by all_goals (simp_wf; try omega)

end

/-- Entry-point of discovery: look up the root path and traverse it
(line 224 calls `findJsFiles(__dirname)`). -/
def findJsFilesRoot (root : Option FsNode) :
    Except FsError (List (List String)) :=
  match root with
  | none => .error .enoent
  | some n => findJsFilesE [] n

/-- A non-pruned route from a node to a directory whose listing fails:
starting at the node, each step descends into a directory entry that the
traversal does not prune, ending at a directory whose `readdirSync`
raises an I/O error. -/
inductive ReachesErr : FsNode → Prop where
  | here (msg : String) : ReachesErr (.errDir msg)
  | child {entries : List (String × FsNode)} {name : String} {c : FsNode} :
      (name, c) ∈ entries → strStartsWith name "." = false →
      IGNORE_DIRS.contains name = false → ReachesErr c →
      ReachesErr (.dir entries)

/-! ### buildFile (lines 70-142) -/

/-- Model of `path.basename` on component lists: the last component. -/
def lastComp : List String → String
  | [] => ""
  | [a] => a
  | _ :: rest => lastComp rest

/-- The output path of `buildFile`: same file name inside a `build`
subdirectory of the source file's own directory (lines 73-76). -/
def outputPathOf (filePath : List String) : List String :=
  filePath.dropLast ++ ["build", lastComp filePath]

/-- The `BuildResult` assembled by `buildFile` (lines 133-136): both paths
relative to the project root in normalised string form. -/
def buildPaths (root filePath : List String) : BuildResult :=
  { originalPath := renderPath (relativeP root filePath)
    builtPath := renderPath (relativeP root (outputPathOf filePath)) }

/-- The fallible collaborators of the transform pipeline: file read,
minifier, obfuscator, and the create-build-dir-and-write step. -/
structure BuildEnv where
  read : List String → Except String String
  minify : String → Except String String
  obfuscate : String → Except String String
  write : List String → String → Except String Unit

/-- The body of `buildFile`'s `try` block: read, minify, obfuscate,
create the build directory and write (lines 71-136). -/
def buildFileTry (env : BuildEnv) (root filePath : List String) :
    Except String BuildResult := do
  let code ← env.read filePath
  let minified ← env.minify code
  let obfuscated ← env.obfuscate minified
  let _ ← env.write (outputPathOf filePath) obfuscated
  pure (buildPaths root filePath)

/-- Model of `buildFile`: any error of the steps is caught and turned into `null`
(lines 138-141). -/
def buildFile (env : BuildEnv) (root filePath : List String) :
    Option BuildResult :=
  (buildFileTry env root filePath).toOption

/-- The orchestrator's per-file loop (lines 235-240): build each file in
order, pushing each non-null result. -/
def mainLoop (env : BuildEnv) (root : List String)
    (files : List (List String)) : List BuildResult :=
  files.foldl
    (fun acc f =>
      match buildFile env root f with
      | some result => acc ++ [result]
      | none => acc)
    []

/-! ### updateManifest (lines 144-162) -/

/-- The replacement text of one manifest mapping: the built path wrapped
in single quotes (line 157). -/
def manifestRepl (b : BuildResult) : List Char :=
  '\'' :: b.builtPath.data ++ ['\'']

/-- One manifest substitution: replace every match of
`['"]originalPath['"]` by `'builtPath'` (lines 155-157). -/
def applyManifestMapping (b : BuildResult) (text : List Char) : List Char :=
  scanRepl [] b.originalPath.data (manifestRepl b) text

/-- The `builtFiles.forEach` loop of `updateManifest` (lines 154-158):
apply the mappings to the manifest text in production order. -/
def updateManifestText : List BuildResult → List Char → List Char
  | [], text => text
  | b :: bs, text => updateManifestText bs (applyManifestMapping b text)

/-- The whole `updateManifest` step on the manifest file's state
(`none` = the file does not exist).  Returns the new on-disk state and
whether the missing-manifest warning was reported (lines 144-162). -/
def updateManifestStep (bs : List BuildResult) :
    Option (List Char) → Option (List Char) × Bool
  | none => (none, true)
  | some text => (some (updateManifestText bs text), false)

/-- A quoted token of a well-delimited manifest text: an opening quote, a
quote-free body, a closing quote, and the quote-free separator text that
follows it. -/
structure MToken where
  q1 : Char
  tok : List Char
  q2 : Char
  sep : List Char

/-- Flatten a token list into text. -/
def assembleItems : List MToken → List Char
  | [] => []
  | it :: items => it.q1 :: it.tok ++ it.q2 :: it.sep ++ assembleItems items

/-- A well-delimited manifest text: leading plain text, then the quoted
tokens with their separators. -/
def assemble (p0 : List Char) (items : List MToken) : List Char :=
  p0 ++ assembleItems items

/-- The effect of one manifest mapping on one token: a token equal to the
original path becomes the built path in single quotes. -/
def substTok (o b : List Char) (it : MToken) : MToken :=
  if it.tok = o then ⟨'\'', b, '\'', it.sep⟩ else it

/-- The effect of the whole mapping sequence on one token. -/
def substAll (bs : List BuildResult) (it : MToken) : MToken :=
  bs.foldl (fun it b => substTok b.originalPath.data b.builtPath.data it) it

/-- Well-formedness of a token list: real quotes around quote-free
bodies, quote-free separators. -/
def itemsOk (items : List MToken) : Prop :=
  ∀ it ∈ items, isQuote it.q1 = true ∧ isQuote it.q2 = true ∧
    noQuote it.tok = true ∧ noQuote it.sep = true

/-! ### updateHtmlFiles (lines 164-217) -/

/-- The literal `src=` attribute prefix of the HTML rewrite regexes. -/
def srcPre : List Char := "src=".data

/-- The literal `href=` attribute prefix of the HTML rewrite regexes. -/
def hrefPre : List Char := "href=".data

/-- One attribute substitution of `updateHtmlFiles` (lines 193-206): if
`attr=["']orig["']` matches, replace every match by `attr="built"` and
mark the file updated; otherwise leave the state alone. -/
def stepAttr (pre : List Char) (orig built : String)
    (st : List Char × Bool) : List Char × Bool :=
  if hasMatch pre orig.data st.1 then
    (scanRepl pre orig.data (pre ++ '"' :: built.data ++ ['"']) st.1, true)
  else st

/-- The two attribute substitutions for one `(original, built)` path pair:
`src` first, then `href` (lines 191-207). -/
def stepPair (ob : String × String) (st : List Char × Bool) :
    List Char × Bool :=
  stepAttr hrefPre ob.1 ob.2 (stepAttr srcPre ob.1 ob.2 st)

/-- The document-relative form of a root-relative path string, as
computed on lines 180-183: join with the root, then take the path
relative to the HTML file's directory (the shared root cancels). -/
def docRelative (htmlDir : List String) (p : String) : String :=
  renderPath (relativeP htmlDir (pathComponents p))

/-- The two path forms tried for one mapping (lines 186-189): the
root-relative pair, then the document-relative pair. -/
def pathsToTry (htmlDir : List String) (b : BuildResult) :
    List (String × String) :=
  [(b.originalPath, b.builtPath),
   (docRelative htmlDir b.originalPath, docRelative htmlDir b.builtPath)]

/-- The full substitution pass of `updateHtmlFiles` on one HTML file's
content (lines 174-208): for each mapping in order, try both path forms,
each with the `src` and `href` substitutions; the Boolean is the
`updated` flag (initially `false`). -/
def updateHtmlText (htmlDir : List String) (bs : List BuildResult)
    (st : List Char × Bool) : List Char × Bool :=
  bs.foldl
    (fun st b => (pathsToTry htmlDir b).foldl (fun st ob => stepPair ob st) st)
    st

/-- Model of `updateHtmlFiles` on the discovered HTML files (each given by its
root-relative path components and content): rewrite each file's text and
write it back only when the `updated` flag is set; the Boolean of each
result records whether the file was written (lines 210-215 log
`No changes` exactly when it is `false`). -/
def updateHtmlFilesStep (bs : List BuildResult)
    (htmls : List (List String × List Char)) :
    List (List String × List Char × Bool) :=
  htmls.map fun h =>
    match updateHtmlText h.1.dropLast bs (h.2, false) with
    | (content, updated) => (h.1, (if updated then content else h.2), updated)

/-- Predicate that `u` is a prefix of `v`. -/
def isPrefx (u v : List Char) : Prop := ∃ w, v = u ++ w

/-- Predicate that `u` is a suffix of `v`. -/
def isSufx (u v : List Char) : Prop := ∃ w, v = w ++ u

/-- One of the two lists is a prefix of the other. -/
def prefixCompat (u v : List Char) : Prop := isPrefx u v ∨ isPrefx v u

/-- The ways a replacement string `R` can collide with the pattern
`pre["]mid["]`: some nonempty suffix of a pattern instance is
prefix-compatible with `R` (a new match could start before an inserted
copy of `R`), or some nonempty suffix of `R` is prefix-compatible with a
pattern instance (a new match could start inside an inserted copy). -/
def BadFor (pre mid R : List Char) : Prop :=
  ∃ q1 q2 m2, isQuote q1 = true ∧ isQuote q2 = true ∧ m2 ≠ [] ∧
    ((isSufx m2 (matchStr pre mid q1 q2) ∧ prefixCompat m2 R) ∨
     (isSufx m2 R ∧ prefixCompat m2 (matchStr pre mid q1 q2)))

/-- The declarative description of one global replace: the output keeps
every character of the input except that each leftmost match of
`pre["]mid["]` is replaced by `R`, the scan resuming after the match. -/
inductive ScanOut (pre mid R : List Char) : List Char → List Char → Prop where
  | nil : ScanOut pre mid R [] []
  | keep {c : Char} {s out : List Char} :
      matchAt pre mid (c :: s) = none → ScanOut pre mid R s out →
      ScanOut pre mid R (c :: s) (c :: out)
  | repl {s rest out : List Char} :
      matchAt pre mid s = some rest → ScanOut pre mid R rest out →
      ScanOut pre mid R s (R ++ out)

/-- The two original-path forms tried for a mapping in one HTML file. -/
def origForms (htmlDir : List String) (b : BuildResult) : List (List Char) :=
  [b.originalPath.data, (docRelative htmlDir b.originalPath).data]

/-- The two built-path forms used for a mapping in one HTML file. -/
def builtForms (htmlDir : List String) (b : BuildResult) : List (List Char) :=
  [b.builtPath.data, (docRelative htmlDir b.builtPath).data]

/-- Shape conditions on one path form: no quote characters, and the
form does not end in the literal `src=` or `href=`. -/
def pathOk (f : List Char) : Prop :=
  noQuote f = true ∧ ¬ isSufx srcPre f ∧ ¬ isSufx hrefPre f

/-- The path-shape conditions under which the HTML rewrite cannot
re-create a pattern match: every path form is quote-free and does not end
in the literal `src=` or `href=`, and no original form coincides with a
built form. -/
def FormsOk (htmlDir : List String) (bs : List BuildResult) : Prop :=
  (∀ b ∈ bs, ∀ f ∈ origForms htmlDir b ++ builtForms htmlDir b,
    noQuote f = true ∧ sufxB srcPre f = false ∧ sufxB hrefPre f = false) ∧
  (∀ b ∈ bs, ∀ b' ∈ bs, ∀ o ∈ origForms htmlDir b,
    ∀ bl ∈ builtForms htmlDir b', o ≠ bl)

/-- The tail of `main` (lines 244-247): when at least one build result was
produced, run the manifest rewrite and then the HTML rewrite.  The state
is the manifest file (if it exists) and the HTML files; the Boolean is
the missing-manifest warning. -/
def mainFinish (bs : List BuildResult) (manifest : Option (List Char))
    (htmls : List (List String × List Char)) :
    Option (List Char) × List (List String × List Char × Bool) × Bool :=
  if bs.isEmpty then (manifest, htmls.map fun h => (h.1, h.2, false), false)
  else
    let m := updateManifestStep bs manifest
    (m.1, updateHtmlFilesStep bs htmls, m.2)

/-- A concrete environment for the pipeline theorems: reading `bad.js`
fails, everything else succeeds with the transforms acting as the
identity. -/
def envW : BuildEnv where
  read := fun p => if p = ["bad.js"] then .error "EACCES" else .ok "code"
  minify := fun s => .ok s
  obfuscate := fun s => .ok s
  write := fun _ _ => .ok ()

/-! ### Theorems -/

theorem splitPre_eq_some {p s t : List Char} (h : splitPre p s = some t) :
    s = p ++ t := by
  induction p generalizing s with
  | nil =>
    simp [splitPre] at h
    simpa using h
  | cons c p ih =>
    cases s with
    | nil => simp [splitPre] at h
    | cons d s =>
      by_cases hcd : c = d
      · subst hcd
        simp [splitPre] at h
        simpa using ih h
      · simp [splitPre, hcd] at h

theorem splitPre_append (p t : List Char) : splitPre p (p ++ t) = some t := by
  induction p with
  | nil => simp [splitPre]
  | cons c p ih => simp [splitPre, ih]

theorem matchAt_eq_some {pre mid s rest : List Char}
    (h : matchAt pre mid s = some rest) :
    ∃ q1 q2, isQuote q1 = true ∧ isQuote q2 = true ∧
      s = matchStr pre mid q1 q2 ++ rest := by
  unfold matchAt at h
  cases hs : splitPre pre s with
  | none => simp [hs] at h
  | some t =>
    cases t with
    | nil => simp [hs] at h
    | cons q1 t1 =>
      simp only [hs] at h
      by_cases hq1 : isQuote q1 = true
      · simp only [hq1, if_true] at h
        cases hm : splitPre mid t1 with
        | none => simp [hm] at h
        | some t2 =>
          cases t2 with
          | nil => simp [hm] at h
          | cons q2 r =>
            simp only [hm] at h
            by_cases hq2 : isQuote q2 = true
            · simp only [hq2, if_true, Option.some_inj] at h
              subst h
              refine ⟨q1, q2, hq1, hq2, ?_⟩
              have h1 := splitPre_eq_some hs
              have h2 := splitPre_eq_some hm
              subst h2
              simp [h1, matchStr]
            · simp [hq2] at h
      · simp [hq1] at h

theorem matchAt_matchStr (pre mid rest : List Char) {q1 q2 : Char}
    (hq1 : isQuote q1 = true) (hq2 : isQuote q2 = true) :
    matchAt pre mid (matchStr pre mid q1 q2 ++ rest) = some rest := by
  simp [matchAt, matchStr, List.append_assoc, splitPre_append, hq1, hq2]

theorem matchAt_length {pre mid s rest : List Char}
    (h : matchAt pre mid s = some rest) : rest.length < s.length := by
  obtain ⟨q1, q2, _, _, hs⟩ := matchAt_eq_some h
  subst hs
  simp [matchStr]
  omega

theorem matchAt_nil (pre mid : List Char) : matchAt pre mid [] = none := by
  cases pre <;> rfl

theorem scanReplAux_irrel (pre mid R : List Char) :
    ∀ f1 f2 s, s.length ≤ f1 → s.length ≤ f2 →
      scanReplAux pre mid R f1 s = scanReplAux pre mid R f2 s := by
  intro f1
  induction f1 with
  | zero =>
    intro f2 s hs1 _
    have : s = [] := List.length_eq_zero.mp (Nat.le_zero.mp hs1)
    subst this
    cases f2 <;> rfl
  | succ f1 ih =>
    intro f2 s hs1 hs2
    cases s with
    | nil => cases f2 <;> rfl
    | cons c s =>
      cases f2 with
      | zero => simp at hs2
      | succ f2 =>
        simp only [scanReplAux]
        cases hm : matchAt pre mid (c :: s) with
        | some rest =>
          have hlen := matchAt_length hm
          simp only [List.length_cons] at hs1 hs2 hlen
          simp only [ih f2 rest (by omega) (by omega)]
        | none =>
          simp only [List.length_cons] at hs1 hs2
          simp only [ih f2 s (by omega) (by omega)]

theorem scanRepl_nil (pre mid R : List Char) : scanRepl pre mid R [] = [] := rfl

theorem scanRepl_match {pre mid s rest : List Char} (R : List Char)
    (h : matchAt pre mid s = some rest) :
    scanRepl pre mid R s = R ++ scanRepl pre mid R rest := by
  cases s with
  | nil => rw [matchAt_nil] at h; exact absurd h (by simp)
  | cons c s =>
    have hlen := matchAt_length h
    simp only [List.length_cons] at hlen
    unfold scanRepl
    simp only [List.length_cons, scanReplAux, h]
    rw [scanReplAux_irrel pre mid R s.length rest.length rest (by omega) le_rfl]

theorem scanRepl_keep {pre mid : List Char} {c : Char} {s : List Char}
    (R : List Char) (h : matchAt pre mid (c :: s) = none) :
    scanRepl pre mid R (c :: s) = c :: scanRepl pre mid R s := by
  unfold scanRepl
  simp only [List.length_cons, scanReplAux, h]

theorem relativeP_append (root p : List String) :
    relativeP root (root ++ p) = p := by
  induction root with
  | nil => cases p <;> simp [relativeP]
  | cons a f ih => simpa [relativeP] using ih


theorem dropLast_append_ne (r p : List String) (hp : p ≠ []) :
    (r ++ p).dropLast = r ++ p.dropLast := by
  induction r with
  | nil => rfl
  | cons a r ih =>
    cases hrp : r ++ p with
    | nil => exact absurd (List.append_eq_nil.mp hrp).2 hp
    | cons x xs =>
      rw [List.cons_append, hrp, List.dropLast_cons₂, ← hrp, ih]
      rfl

theorem lastComp_append (r p : List String) (hp : p ≠ []) :
    lastComp (r ++ p) = lastComp p := by
  induction r with
  | nil => rfl
  | cons a r ih =>
    cases hrp : r ++ p with
    | nil => exact absurd (List.append_eq_nil.mp hrp).2 hp
    | cons x xs =>
      rw [List.cons_append, hrp]
      show lastComp (x :: xs) = lastComp p
      rw [← hrp]
      exact ih

/-- Claim C1: for every successfully transformed source file (given by
its root-relative components `p`), the output path is the same file name
placed in a `build` subdirectory of the source file's own directory
(sibling-relative, not at the project root), and the `BuildResult`
records both paths relative to the project root with forward-slash
separators. -/
theorem c1_output_paths (root p : List String) (hp : p ≠ []) :
    buildPaths root (root ++ p) =
      { originalPath := renderPath p
        builtPath := renderPath (p.dropLast ++ ["build", lastComp p]) } := by
  unfold buildPaths outputPathOf
  rw [dropLast_append_ne root p hp, lastComp_append root p hp,
    relativeP_append, List.append_assoc, relativeP_append]

theorem c1_witness :
    buildPaths ["home", "proj"] (["home", "proj"] ++ ["web", "script.js"]) =
      { originalPath := renderPath ["web", "script.js"]
        builtPath := renderPath (["web", "script.js"].dropLast ++
          ["build", lastComp ["web", "script.js"]]) } ∧
    buildPaths ["home", "proj"] (["home", "proj"] ++ ["web", "script.js"]) =
      { originalPath := "web/script.js", builtPath := "web/build/script.js" } := by
  constructor
  · exact c1_output_paths ["home", "proj"] ["web", "script.js"] (by decide)
  · decide

/-- Claim C2: the orchestrator's loop collects exactly the non-null
results of `buildFile` in order; an error in any transform step makes
`buildFile` return `null` for that file, and a `null` result leaves the
remaining files' processing unchanged — one failing file never aborts
the batch. -/
theorem c2_per_file_errors (env : BuildEnv) (root : List String) :
    (∀ files : List (List String), mainLoop env root files =
      List.filterMap (buildFile env root) files) ∧
    (∀ f e, buildFileTry env root f = .error e →
      buildFile env root f = none) ∧
    (∀ f fs, buildFile env root f = none →
      mainLoop env root (f :: fs) = mainLoop env root fs) := by
  have key : ∀ (files : List (List String)) (acc : List BuildResult),
      files.foldl
        (fun acc f => match buildFile env root f with
          | some result => acc ++ [result]
          | none => acc) acc =
        acc ++ List.filterMap (buildFile env root) files := by
    intro files
    induction files with
    | nil => intro acc; simp
    | cons f fs ih =>
      intro acc
      simp only [List.foldl_cons, List.filterMap_cons]
      cases hf : buildFile env root f with
      | some r => rw [ih]; simp
      | none => rw [ih]
  have h1 : ∀ files : List (List String), mainLoop env root files =
      List.filterMap (buildFile env root) files := by
    intro files
    rw [mainLoop, key]
    rfl
  refine ⟨h1, ?_, ?_⟩
  · intro f e h
    rw [buildFile, h]
    rfl
  · intro f fs h
    rw [h1, h1, List.filterMap_cons, h]

theorem c2_witness :
    mainLoop envW [] [["bad.js"], ["a.js"]] =
      [["bad.js"], ["a.js"]].filterMap (buildFile envW []) ∧
    buildFile envW [] ["bad.js"] = none ∧
    mainLoop envW [] [["bad.js"], ["a.js"]] = mainLoop envW [] [["a.js"]] := by
  refine ⟨(c2_per_file_errors envW []).1 _, ?_, ?_⟩
  · exact (c2_per_file_errors envW []).2.1 ["bad.js"] "EACCES" rfl
  · exact (c2_per_file_errors envW []).2.2 ["bad.js"] [["a.js"]]
      ((c2_per_file_errors envW []).2.1 ["bad.js"] "EACCES" rfl)

/-- Claim C8: when build results exist but the manifest file does not,
the manifest step performs no write and reports the warning, and the run
continues: the HTML rewrite still proceeds. -/
theorem c8_missing_manifest (bs : List BuildResult)
    (htmls : List (List String × List Char)) (hbs : bs ≠ []) :
    (mainFinish bs none htmls).1 = none ∧
    (mainFinish bs none htmls).2.2 = true ∧
    (mainFinish bs none htmls).2.1 = updateHtmlFilesStep bs htmls := by
  have hne : bs.isEmpty = false := by
    cases bs with
    | nil => exact absurd rfl hbs
    | cons b bs => rfl
  simp [mainFinish, updateManifestStep, hne]

theorem c8_witness :
    (mainFinish [⟨"a.js", "build/a.js"⟩] none []).1 = none ∧
    (mainFinish [⟨"a.js", "build/a.js"⟩] none []).2.2 = true ∧
    (mainFinish [⟨"a.js", "build/a.js"⟩] none []).2.1 =
      updateHtmlFilesStep [⟨"a.js", "build/a.js"⟩] [] :=
  c8_missing_manifest [⟨"a.js", "build/a.js"⟩] [] (by decide)

theorem stepAttr_snd_false {pre : List Char} {o b : String}
    {st : List Char × Bool} (h : (stepAttr pre o b st).2 = false) :
    stepAttr pre o b st = st := by
  cases hm : hasMatch pre o.data st.1
  · simp [stepAttr, hm]
  · simp [stepAttr, hm] at h

theorem stepPair_snd_false {ob : String × String} {st : List Char × Bool}
    (h : (stepPair ob st).2 = false) : stepPair ob st = st := by
  unfold stepPair at h ⊢
  have h2 : stepAttr hrefPre ob.1 ob.2 (stepAttr srcPre ob.1 ob.2 st) =
      stepAttr srcPre ob.1 ob.2 st := stepAttr_snd_false h
  rw [h2] at h ⊢
  exact stepAttr_snd_false h

theorem foldPairs_snd_false :
    ∀ (l : List (String × String)) (st : List Char × Bool),
    (l.foldl (fun st ob => stepPair ob st) st).2 = false →
    l.foldl (fun st ob => stepPair ob st) st = st := by
  intro l
  induction l with
  | nil => intro st _; rfl
  | cons ob l ih =>
    intro st h
    simp only [List.foldl_cons] at h ⊢
    have h2 := ih _ h
    rw [h2] at h ⊢
    exact stepPair_snd_false h

theorem updateHtmlText_snd_false {htmlDir : List String}
    {bs : List BuildResult} {st : List Char × Bool}
    (h : (updateHtmlText htmlDir bs st).2 = false) :
    updateHtmlText htmlDir bs st = st := by
  unfold updateHtmlText at h ⊢
  induction bs generalizing st with
  | nil => rfl
  | cons b bs ih =>
    simp only [List.foldl_cons] at h ⊢
    have h2 := ih h
    rw [h2] at h ⊢
    exact foldPairs_snd_false _ _ h

/-- Claim C9: an HTML file is written back only when at least one
substitution fired (the `updated` flag); when no substitution matched,
the rewritten text equals the original, the on-disk content is kept, and
the entry is reported as `No changes` (flag `false`). -/
theorem c9_write_only_if_updated (bs : List BuildResult)
    (hpath : List String) (content : List Char)
    (h : (updateHtmlText hpath.dropLast bs (content, false)).2 = false) :
    (updateHtmlText hpath.dropLast bs (content, false)).1 = content ∧
    updateHtmlFilesStep bs [(hpath, content)] = [(hpath, content, false)] := by
  have h2 := updateHtmlText_snd_false h
  constructor
  · rw [h2]
  · unfold updateHtmlFilesStep
    simp [h2]

theorem c9_witness :
    (updateHtmlText (["ui", "index.html"].dropLast)
      [⟨"main.js", "build/main.js"⟩] ("<p>x</p>".data, false)).1 =
      "<p>x</p>".data ∧
    updateHtmlFilesStep [⟨"main.js", "build/main.js"⟩]
      [(["ui", "index.html"], "<p>x</p>".data)] =
      [(["ui", "index.html"], "<p>x</p>".data, false)] :=
  c9_write_only_if_updated [⟨"main.js", "build/main.js"⟩]
    ["ui", "index.html"] "<p>x</p>".data (by decide)

/-- Claim C10: the manifest regex does not require the opening and
closing quote characters to agree — any quote pair around the original
path (for example a double quote before and a single quote after) is
matched, the replacement emits the built path in matching single quotes,
and the scan continues after the match. -/
theorem c10_mixed_quotes (b : BuildResult) (rest : List Char) {q1 q2 : Char}
    (hq1 : isQuote q1 = true) (hq2 : isQuote q2 = true) :
    applyManifestMapping b (q1 :: b.originalPath.data ++ q2 :: rest) =
      manifestRepl b ++ applyManifestMapping b rest := by
  unfold applyManifestMapping
  have h : matchAt [] b.originalPath.data
      (q1 :: b.originalPath.data ++ q2 :: rest) = some rest := by
    have hmm := matchAt_matchStr [] b.originalPath.data rest hq1 hq2
    simpa [matchStr] using hmm
  rw [scanRepl_match _ h]

theorem c10_witness :
    applyManifestMapping ⟨"main.js", "build/main.js"⟩
        ('"' :: "main.js".data ++ '\'' :: []) =
      manifestRepl ⟨"main.js", "build/main.js"⟩ ++
        applyManifestMapping ⟨"main.js", "build/main.js"⟩ [] :=
  c10_mixed_quotes ⟨"main.js", "build/main.js"⟩ [] (by decide) (by decide)

/-- Claim C4: discovery never returns a path that passes through a
directory whose name starts with `.` or is in the ignored-directory set
(such directories are pruned), never returns a file whose root-relative
normalised path equals an ignored-file entry, and every returned path
ends with the `.js` suffix. -/
theorem c4_discovery_invariant :
    ∀ (rel : List String) (entries : List FsEntry),
    ∀ p ∈ findJsFiles rel entries,
    ∃ ds name, p = rel ++ ds ++ [name] ∧
      (∀ d ∈ ds, strStartsWith d "." = false ∧
        IGNORE_DIRS.contains d = false) ∧
      strEndsWith name ".js" = true ∧ shouldIgnoreFile p = false := by
  intro rel entries
  induction rel, entries using findJsFiles.induct with
  | case1 rel =>
    intro p hp
    simp [findJsFiles] at hp
  | case2 rel name es ih =>
    intro p hp
    rw [findJsFiles] at hp
    rcases List.mem_append.mp hp with h | h
    · by_cases hcond :
        (strEndsWith name ".js" && !shouldIgnoreFile (rel ++ [name])) = true
      · rw [if_pos hcond] at h
        have hp2 : p = rel ++ [name] := List.mem_singleton.mp h
        subst hp2
        obtain ⟨h1, h2⟩ : strEndsWith name ".js" = true ∧
            shouldIgnoreFile (rel ++ [name]) = false := by
          simpa using hcond
        exact ⟨[], name, by simp, by simp, h1, h2⟩
      · rw [if_neg hcond] at h
        simp at h
    · exact ih p h
  | case3 rel name sub es ihsub ih =>
    intro p hp
    rw [findJsFiles] at hp
    rcases List.mem_append.mp hp with h | h
    · by_cases hcond :
        (!strStartsWith name "." && !IGNORE_DIRS.contains name) = true
      · rw [if_pos hcond] at h
        obtain ⟨ds, nm, hpe, hds, hjs, hig⟩ := ihsub p h
        refine ⟨name :: ds, nm, ?_, ?_, hjs, hig⟩
        · rw [hpe]
          simp
        · intro d hd
          rcases List.mem_cons.mp hd with rfl | hd
          · obtain ⟨h1, h2⟩ : strStartsWith d "." = false ∧
                IGNORE_DIRS.contains d = false := by
              simpa using hcond
            exact ⟨h1, h2⟩
          · exact hds d hd
      · rw [if_neg hcond] at h
        simp at h
    · exact ih p h

theorem c4_witness :
    ∃ ds name, (["web", "script.js"] : List String) = [] ++ ds ++ [name] ∧
      (∀ d ∈ ds, strStartsWith d "." = false ∧
        IGNORE_DIRS.contains d = false) ∧
      strEndsWith name ".js" = true ∧
      shouldIgnoreFile ["web", "script.js"] = false :=
  c4_discovery_invariant [] [.dir "web" [.file "script.js"], .file "main.js",
    .dir "node_modules" [.file "x.js"], .file "build.ts"] ["web", "script.js"]
    (by simp [findJsFiles, shouldIgnoreFile]; decide)

theorem goEntriesE_err :
    ∀ (rel : List String) (entries : List (String × FsNode))
      (name : String) (c : FsNode),
    (name, c) ∈ entries → strStartsWith name "." = false →
    IGNORE_DIRS.contains name = false →
    (∀ rel', ∃ e, findJsFilesE rel' c = .error e) → c ≠ .file →
    ∃ e, goEntriesE rel entries = .error e := by
  intro rel entries
  induction entries with
  | nil =>
    intro name c h
    simp at h
  | cons hd tl ih =>
    intro name c hmem hname hdirs hc hcf
    rcases List.mem_cons.mp hmem with heq | hmem'
    · subst heq
      have hcond : (!strStartsWith name "." && !IGNORE_DIRS.contains name)
          = true := by
        rw [hname, hdirs]
        rfl
      cases c with
      | file => exact absurd rfl hcf
      | dir sub =>
        rw [goEntriesE, if_pos hcond]
        obtain ⟨e, he⟩ := hc (rel ++ [name])
        rw [he]
        exact ⟨e, rfl⟩
      | errDir msg =>
        rw [goEntriesE, if_pos hcond]
        obtain ⟨e, he⟩ := hc (rel ++ [name])
        rw [he]
        exact ⟨e, rfl⟩
    · obtain ⟨e', he'⟩ := ih name c hmem' hname hdirs hc hcf
      obtain ⟨nm, ch⟩ := hd
      cases ch with
      | file =>
        rw [goEntriesE, he']
        exact ⟨e', rfl⟩
      | dir sub =>
        rw [goEntriesE]
        by_cases hcond :
          (!strStartsWith nm "." && !IGNORE_DIRS.contains nm) = true
        · rw [if_pos hcond]
          cases hsub : findJsFilesE (rel ++ [nm]) (.dir sub) with
          | error e2 => exact ⟨e2, rfl⟩
          | ok r =>
            rw [he']
            exact ⟨e', rfl⟩
        · rw [if_neg hcond]
          exact ⟨e', he'⟩
      | errDir msg =>
        rw [goEntriesE]
        by_cases hcond :
          (!strStartsWith nm "." && !IGNORE_DIRS.contains nm) = true
        · rw [if_pos hcond]
          have hsub : findJsFilesE (rel ++ [nm]) (.errDir msg) =
              .error (.other msg) := by
            rw [findJsFilesE]
          rw [hsub]
          exact ⟨.other msg, rfl⟩
        · rw [if_neg hcond]
          exact ⟨e', he'⟩

/-- Claim C5: a missing or non-directory root makes discovery fail with
one of the not-found errors (`ENOENT`/`ENOTDIR`, the spec's
`NotFoundError`), and any other file-system error raised at a reachable,
non-pruned directory propagates uncaught: the traversal's result is that
an error, never a success. -/
theorem c5_discovery_errors :
    (∀ root : Option FsNode, root = none ∨ root = some .file →
      ∃ e, findJsFilesRoot root = .error e ∧ e.isNotFound = true) ∧
    (∀ (rel : List String) (n : FsNode), ReachesErr n →
      ∃ e, findJsFilesE rel n = .error e) := by
  constructor
  · rintro root (rfl | rfl)
    · exact ⟨.enoent, rfl, rfl⟩
    · refine ⟨.enotdir, ?_, rfl⟩
      show findJsFilesE [] .file = .error .enotdir
      rw [findJsFilesE]
  · have main : ∀ (n : FsNode), ReachesErr n →
        ∀ rel, ∃ e, findJsFilesE rel n = .error e := by
      intro n hn
      induction hn with
      | here msg =>
        intro rel
        refine ⟨.other msg, ?_⟩
        rw [findJsFilesE]
      | @child entries name c hmem hname hdirs hrec ih =>
        intro rel
        have hcf : c ≠ FsNode.file := by
          intro hh
          rw [hh] at hrec
          cases hrec
        rw [findJsFilesE]
        exact goEntriesE_err rel _ _ _ hmem hname hdirs ih hcf
    intro rel n hn
    exact main n hn rel

theorem c5_witness :
    (∃ e, findJsFilesRoot (some .file) = .error e ∧ e.isNotFound = true) ∧
    (∃ e, findJsFilesE [] (.dir [("web", .errDir "EIO")]) = .error e) := by
  constructor
  · exact c5_discovery_errors.1 (some .file) (Or.inr rfl)
  · exact c5_discovery_errors.2 [] (.dir [("web", .errDir "EIO")])
      (ReachesErr.child (List.mem_singleton.mpr rfl) (by decide) (by decide)
        (ReachesErr.here "EIO"))

theorem scanRepl_scanOut (pre mid R : List Char) :
    ∀ s, ScanOut pre mid R s (scanRepl pre mid R s) := by
  have key : ∀ (n : Nat) (s : List Char), s.length ≤ n →
      ScanOut pre mid R s (scanRepl pre mid R s) := by
    intro n
    induction n with
    | zero =>
      intro s hs
      have hnil : s = [] := List.length_eq_zero.mp (Nat.le_zero.mp hs)
      subst hnil
      rw [scanRepl_nil]
      exact .nil
    | succ n ih =>
      intro s hs
      cases s with
      | nil =>
        rw [scanRepl_nil]
        exact .nil
      | cons c s' =>
        cases hm : matchAt pre mid (c :: s') with
        | some rest =>
          rw [scanRepl_match R hm]
          refine .repl hm (ih rest ?_)
          have hlen := matchAt_length hm
          simp only [List.length_cons] at hlen hs
          omega
        | none =>
          rw [scanRepl_keep R hm]
          refine .keep hm (ih s' ?_)
          simp only [List.length_cons] at hs
          omega
  intro s
  exact key s.length s le_rfl

/-- Claim C3: the manifest rewriter applies the mappings in production
order (a later mapping is matched against the already-rewritten text),
and each mapping's substitution satisfies the global-replace relation:
every leftmost match of the original path in (single or double) quotes —
the path matches literally, its regex metacharacters having been escaped
— is replaced by the built path wrapped in single quotes, and every
other character is kept verbatim. -/
theorem c3_manifest_order_and_substitution :
    (∀ (b : BuildResult) (bs : List BuildResult) (text : List Char),
      updateManifestText (b :: bs) text =
        updateManifestText bs (applyManifestMapping b text)) ∧
    (∀ (b : BuildResult) (text : List Char),
      ScanOut [] b.originalPath.data (manifestRepl b) text
        (applyManifestMapping b text)) := by
  constructor
  · intro b bs text
    rfl
  · intro b text
    exact scanRepl_scanOut [] b.originalPath.data (manifestRepl b) text

theorem noQuote_mem {l : List Char} (h : noQuote l = true) {c : Char}
    (hc : c ∈ l) : isQuote c = false := by
  have h2 := List.all_eq_true.mp h c hc
  simpa using h2

theorem noQuote_sufx {u v : List Char} (hs : isSufx u v)
    (h : noQuote v = true) : noQuote u = true := by
  obtain ⟨w, rfl⟩ := hs
  refine List.all_eq_true.mpr ?_
  intro c hc
  exact List.all_eq_true.mp h c (List.mem_append.mpr (Or.inr hc))

theorem isSufx_cons {u v : List Char} (c : Char) (h : isSufx u v) :
    isSufx u (c :: v) := by
  obtain ⟨w, rfl⟩ := h
  exact ⟨c :: w, rfl⟩

theorem isSufx_refl (u : List Char) : isSufx u u := ⟨[], rfl⟩

theorem isSufx_nil (u : List Char) : isSufx [] u := ⟨u, by simp⟩

theorem append_eq_prefixCompat :
    ∀ (a : List Char) {b : List Char} (c : List Char) {d : List Char},
    a ++ b = c ++ d → prefixCompat a c := by
  intro a
  induction a with
  | nil =>
    intro b c d _
    exact Or.inl ⟨c, rfl⟩
  | cons x a ih =>
    intro b c d h
    cases c with
    | nil => exact Or.inr ⟨x :: a, rfl⟩
    | cons y c =>
      simp only [List.cons_append, List.cons.injEq] at h
      rcases ih c h.2 with ⟨w, hw⟩ | ⟨w, hw⟩
      · exact Or.inl ⟨w, by rw [h.1, List.cons_append, hw]⟩
      · exact Or.inr ⟨w, by rw [← h.1, List.cons_append, hw]⟩

theorem quote_split_eq :
    ∀ (X1 : List Char) (q1 : Char) (Z1 X2 : List Char) (q2 : Char)
      (Z2 : List Char), noQuote X1 = true → noQuote X2 = true →
    isQuote q1 = true → isQuote q2 = true →
    X1 ++ q1 :: Z1 = X2 ++ q2 :: Z2 → X1 = X2 ∧ q1 = q2 ∧ Z1 = Z2 := by
  intro X1
  induction X1 with
  | nil =>
    intro q1 Z1 X2 q2 Z2 _ h2 hq1 _ heq
    cases X2 with
    | nil =>
      simp only [List.nil_append, List.cons.injEq] at heq
      exact ⟨rfl, heq.1, heq.2⟩
    | cons b X2' =>
      simp only [List.nil_append, List.cons_append, List.cons.injEq] at heq
      exfalso
      have hb : isQuote b = false := noQuote_mem h2 (by simp)
      rw [heq.1, hb] at hq1
      exact Bool.false_ne_true hq1
  | cons a X1' ih =>
    intro q1 Z1 X2 q2 Z2 h1 h2 hq1 hq2 heq
    cases X2 with
    | nil =>
      simp only [List.cons_append, List.nil_append, List.cons.injEq] at heq
      exfalso
      have ha : isQuote a = false := noQuote_mem h1 (by simp)
      rw [← heq.1, ha] at hq2
      exact Bool.false_ne_true hq2
    | cons b X2' =>
      simp only [List.cons_append, List.cons.injEq] at heq
      have h1' : noQuote X1' = true := by
        refine List.all_eq_true.mpr fun c hc => List.all_eq_true.mp h1 c ?_
        simp [hc]
      have h2' : noQuote X2' = true := by
        refine List.all_eq_true.mpr fun c hc => List.all_eq_true.mp h2 c ?_
        simp [hc]
      obtain ⟨hx, hq, hz⟩ := ih q1 Z1 X2' q2 Z2 h1' h2' hq1 hq2 heq.2
      exact ⟨by rw [heq.1, hx], hq, hz⟩

theorem isSufx_append_cases :
    ∀ (u : List Char) {d v : List Char}, isSufx d (u ++ v) →
    isSufx d v ∨ ∃ u', isSufx u' u ∧ u' ≠ [] ∧ d = u' ++ v := by
  intro u
  induction u with
  | nil =>
    intro d v h
    left
    simpa using h
  | cons a u ih =>
    intro d v h
    obtain ⟨w, hw⟩ := h
    cases w with
    | nil =>
      right
      refine ⟨a :: u, isSufx_refl _, by simp, ?_⟩
      simpa using hw.symm
    | cons b w' =>
      simp only [List.cons_append, List.cons.injEq] at hw
      rcases ih ⟨w', hw.2⟩ with h1 | ⟨u', hu', hne, hd⟩
      · exact Or.inl h1
      · exact Or.inr ⟨u', isSufx_cons a hu', hne, hd⟩

theorem isSufx_qshape {d X Y : List Char} {qa qb : Char}
    (hd : isSufx d (X ++ (qa :: (Y ++ [qb])))) (hne : d ≠ []) :
    (∃ X', isSufx X' X ∧ d = X' ++ (qa :: (Y ++ [qb]))) ∨
    (∃ Y', isSufx Y' Y ∧ d = Y' ++ [qb]) := by
  rcases isSufx_append_cases X hd with h | ⟨X', hX', _, hd'⟩
  · rcases isSufx_append_cases (qa :: Y) (by simpa using h) with h2 | ⟨u', hu', hne2, hd2⟩
    · obtain ⟨w, hw⟩ := h2
      cases d with
      | nil => exact absurd rfl hne
      | cons x xs =>
        right
        refine ⟨[], isSufx_nil Y, ?_⟩
        cases w with
        | nil =>
          simp only [List.nil_append, List.cons.injEq] at hw
          simp [hw.1, ← hw.2]
        | cons y ys =>
          exfalso
          simp only [List.cons_append, List.cons.injEq] at hw
          exact absurd hw.2.symm (by simp)
    · rcases isSufx_append_cases [qa]
        (show isSufx u' ([qa] ++ Y) by simpa using hu') with
        h3 | ⟨w', hw', hne3, hu''⟩
      · right
        exact ⟨u', h3, hd2⟩
      · obtain ⟨ww, hww⟩ := hw'
        have hweq : w' = [qa] := by
          cases ww with
          | nil => simpa using hww.symm
          | cons z zs =>
            exfalso
            simp only [List.cons_append, List.cons.injEq] at hww
            rcases List.append_eq_nil.mp hww.2.symm with ⟨_, h0⟩
            exact hne3 h0
        left
        refine ⟨[], isSufx_nil X, ?_⟩
        rw [hd2, hu'', hweq]
        simp
  · left
    exact ⟨X', hX', hd'⟩

theorem hasMatch_of_sufx {pre mid u s : List Char} (hs : isSufx u s)
    (h : hasMatch pre mid u = true) : hasMatch pre mid s = true := by
  obtain ⟨w, rfl⟩ := hs
  induction w with
  | nil => simpa using h
  | cons c w ih =>
    rw [List.cons_append, hasMatch]
    rw [ih]
    simp

theorem matchAt_isSome_hasMatch {pre mid s : List Char}
    (h : (matchAt pre mid s).isSome = true) : hasMatch pre mid s = true := by
  cases s with
  | nil =>
    rw [matchAt_nil] at h
    simp at h
  | cons c s' =>
    rw [hasMatch, h]
    simp

theorem hasMatch_append_cases {pre mid : List Char} :
    ∀ (R out : List Char), hasMatch pre mid (R ++ out) = true →
    (∃ r, isSufx r R ∧ r ≠ [] ∧ (matchAt pre mid (r ++ out)).isSome = true) ∨
    hasMatch pre mid out = true := by
  intro R
  induction R with
  | nil =>
    intro out h
    right
    simpa using h
  | cons c R' ih =>
    intro out h
    rw [List.cons_append, hasMatch] at h
    rcases Bool.or_eq_true_iff.mp h with hfront | htail
    · left
      exact ⟨c :: R', isSufx_refl _, by simp, by simpa using hfront⟩
    · rcases ih out htail with ⟨r, hr, hne, hm⟩ | h2
      · exact Or.inl ⟨r, isSufx_cons c hr, hne, hm⟩
      · exact Or.inr h2

theorem scanOut_front {pre mid R : List Char} :
    ∀ {s out : List Char}, ScanOut pre mid R s out →
    ∀ m tail, out = m ++ tail →
    (∃ t, s = m ++ t) ∨
    (∃ m1 m2 t, m = m1 ++ m2 ∧ m2 ≠ [] ∧ m2 ++ tail = R ++ t) := by
  intro s out hso
  induction hso with
  | nil =>
    intro m tail hmt
    left
    have hm : m = [] := (List.append_eq_nil.mp hmt.symm).1
    subst hm
    exact ⟨[], rfl⟩
  | @keep c s' out' hm hso ih =>
    intro m tail hmt
    cases m with
    | nil => exact Or.inl ⟨c :: s', rfl⟩
    | cons x m' =>
      simp only [List.cons_append, List.cons.injEq] at hmt
      rcases ih m' tail hmt.2 with ⟨t, ht⟩ | ⟨m1, m2, t, hm12, hne, hrt⟩
      · left
        exact ⟨t, by rw [hmt.1, List.cons_append, ht]⟩
      · right
        exact ⟨x :: m1, m2, t, by rw [List.cons_append, hm12], hne, hrt⟩
  | @repl s' rest out' hm hso ih =>
    intro m tail hmt
    cases m with
    | nil => exact Or.inl ⟨s', rfl⟩
    | cons x m' =>
      right
      exact ⟨[], x :: m', out', by simp, by simp, hmt.symm⟩

theorem scanOut_hasMatch_transfer {pre mid R pre' mid' : List Char} :
    ∀ {s out : List Char}, ScanOut pre mid R s out →
    hasMatch pre' mid' out = true →
    hasMatch pre' mid' s = true ∨ BadFor pre' mid' R := by
  intro s out hso
  induction hso with
  | nil =>
    intro h
    simp [hasMatch] at h
  | @keep c s' out' hm hso ih =>
    intro h
    rw [hasMatch] at h
    rcases Bool.or_eq_true_iff.mp h with hfront | htail
    · rw [Option.isSome_iff_exists] at hfront
      obtain ⟨rest', hrest'⟩ := hfront
      obtain ⟨q1, q2, hq1, hq2, hdec⟩ := matchAt_eq_some hrest'
      rcases scanOut_front (ScanOut.keep hm hso)
          (matchStr pre' mid' q1 q2) rest' hdec with
        ⟨t, ht⟩ | ⟨m1, m2, t, hm12, hne, hrt⟩
      · left
        refine matchAt_isSome_hasMatch ?_
        rw [ht, matchAt_matchStr pre' mid' t hq1 hq2]
        rfl
      · right
        refine ⟨q1, q2, m2, hq1, hq2, hne, Or.inl ⟨⟨m1, hm12⟩, ?_⟩⟩
        exact append_eq_prefixCompat m2 R hrt
    · rcases ih htail with h1 | h2
      · left
        rw [hasMatch, h1]
        simp
      · exact Or.inr h2
  | @repl s' rest out' hm hso ih =>
    intro h
    rcases hasMatch_append_cases R out' h with ⟨r, hr, hne, hsome⟩ | htail
    · right
      rw [Option.isSome_iff_exists] at hsome
      obtain ⟨rest', hrest'⟩ := hsome
      obtain ⟨q1, q2, hq1, hq2, hdec⟩ := matchAt_eq_some hrest'
      refine ⟨q1, q2, r, hq1, hq2, hne, Or.inr ⟨hr, ?_⟩⟩
      exact append_eq_prefixCompat r (matchStr pre' mid' q1 q2) hdec
    · rcases ih htail with h1 | h2
      · left
        obtain ⟨q1, q2, _, _, hdec⟩ := matchAt_eq_some hm
        exact hasMatch_of_sufx ⟨matchStr pre mid q1 q2, hdec⟩ h1
      · exact Or.inr h2

theorem scanOut_hasMatch_self {pre mid R : List Char} :
    ∀ {s out : List Char}, ScanOut pre mid R s out →
    hasMatch pre mid out = true → BadFor pre mid R := by
  intro s out hso
  induction hso with
  | nil =>
    intro h
    simp [hasMatch] at h
  | @keep c s' out' hm hso ih =>
    intro h
    rw [hasMatch] at h
    rcases Bool.or_eq_true_iff.mp h with hfront | htail
    · rw [Option.isSome_iff_exists] at hfront
      obtain ⟨rest', hrest'⟩ := hfront
      obtain ⟨q1, q2, hq1, hq2, hdec⟩ := matchAt_eq_some hrest'
      rcases scanOut_front (ScanOut.keep hm hso)
          (matchStr pre mid q1 q2) rest' hdec with
        ⟨t, ht⟩ | ⟨m1, m2, t, hm12, hne, hrt⟩
      · exfalso
        rw [ht, matchAt_matchStr pre mid t hq1 hq2] at hm
        exact Option.some_ne_none t hm
      · refine ⟨q1, q2, m2, hq1, hq2, hne, Or.inl ⟨⟨m1, hm12⟩, ?_⟩⟩
        exact append_eq_prefixCompat m2 R hrt
    · exact ih htail
  | @repl s' rest out' hm hso ih =>
    intro h
    rcases hasMatch_append_cases R out' h with ⟨r, hr, hne, hsome⟩ | htail
    · rw [Option.isSome_iff_exists] at hsome
      obtain ⟨rest', hrest'⟩ := hsome
      obtain ⟨q1, q2, hq1, hq2, hdec⟩ := matchAt_eq_some hrest'
      refine ⟨q1, q2, r, hq1, hq2, hne, Or.inr ⟨hr, ?_⟩⟩
      exact append_eq_prefixCompat r (matchStr pre mid q1 q2) hdec
    · exact ih htail

theorem scanRepl_preserves_no_match {pre mid R pre' mid' : List Char}
    (hbad : ¬ BadFor pre' mid' R) {s : List Char}
    (hs : hasMatch pre' mid' s = false) :
    hasMatch pre' mid' (scanRepl pre mid R s) = false := by
  cases hm : hasMatch pre' mid' (scanRepl pre mid R s) with
  | false => rfl
  | true =>
    exfalso
    rcases scanOut_hasMatch_transfer (scanRepl_scanOut pre mid R s) hm with
      h1 | h2
    · rw [hs] at h1
      exact Bool.false_ne_true h1
    · exact hbad h2

theorem scanRepl_self_no_match {pre mid R : List Char}
    (hbad : ¬ BadFor pre mid R) (s : List Char) :
    hasMatch pre mid (scanRepl pre mid R s) = false := by
  cases hm : hasMatch pre mid (scanRepl pre mid R s) with
  | false => rfl
  | true =>
    exact absurd (scanOut_hasMatch_self (scanRepl_scanOut pre mid R s) hm) hbad

theorem matchStr_shape (pre mid : List Char) (q1 q2 : Char) :
    matchStr pre mid q1 q2 = pre ++ (q1 :: (mid ++ [q2])) := by
  simp [matchStr]

theorem not_badFor {pre' mid' A B : List Char} {qL qR : Char}
    (hpq : noQuote pre' = true) (hAq : noQuote A = true)
    (hmq : noQuote mid' = true) (hBq : noQuote B = true)
    (hqL : isQuote qL = true) (hqR : isQuote qR = true)
    (hne : mid' ≠ B) (hendA : ¬ isSufx A mid') (hendP : ¬ isSufx pre' B) :
    ¬ BadFor pre' mid' (A ++ (qL :: (B ++ [qR]))) := by
  rintro ⟨q1, q2, m2, hq1, hq2, hm2ne, hcase⟩
  rcases hcase with ⟨hsuf, hcompat⟩ | ⟨hsuf, hcompat⟩
  · rw [matchStr_shape] at hsuf
    rcases isSufx_qshape hsuf hm2ne with ⟨X', hX', hm2⟩ | ⟨Y', hY', hm2⟩
    · have hX'q : noQuote X' = true := noQuote_sufx hX' hpq
      rcases hcompat with ⟨w, hw⟩ | ⟨w, hw⟩
      · rw [hm2] at hw
        simp only [List.append_assoc, List.cons_append,
          List.singleton_append] at hw
        obtain ⟨hXA, hqq, hz⟩ := quote_split_eq A qL (B ++ [qR]) X' q1
          (mid' ++ (q2 :: w)) hAq hX'q hqL hq1 hw
        obtain ⟨hBm, _, _⟩ := quote_split_eq B qR [] mid' q2 w
          hBq hmq hqR hq2 (by simpa using hz)
        exact hne hBm.symm
      · rw [hm2] at hw
        simp only [List.append_assoc, List.cons_append,
          List.singleton_append] at hw
        obtain ⟨hXA, hqq, hz⟩ := quote_split_eq X' q1 (mid' ++ [q2]) A qL
          (B ++ (qR :: w)) hX'q hAq hq1 hqL hw
        obtain ⟨hmB, _, _⟩ := quote_split_eq mid' q2 [] B qR w
          hmq hBq hq2 hqR (by simpa using hz)
        exact hne hmB
    · have hY'q : noQuote Y' = true := noQuote_sufx hY' hmq
      rcases hcompat with ⟨w, hw⟩ | ⟨w, hw⟩
      · rw [hm2] at hw
        simp only [List.append_assoc, List.cons_append,
          List.singleton_append] at hw
        obtain ⟨hAY, _, _⟩ := quote_split_eq A qL (B ++ [qR]) Y' q2 w
          hAq hY'q hqL hq2 hw
        refine hendA ?_
        rw [hAY]
        exact hY'
      · rw [hm2] at hw
        simp only [List.append_assoc, List.cons_append,
          List.singleton_append] at hw
        obtain ⟨hYA, _, hz⟩ := quote_split_eq Y' q2 [] A qL
          (B ++ (qR :: w)) hY'q hAq hq2 hqL hw
        exact absurd hz.symm (by simp)
  · rcases isSufx_qshape hsuf hm2ne with ⟨A', hA', hm2⟩ | ⟨B', hB', hm2⟩
    · have hA'q : noQuote A' = true := noQuote_sufx hA' hAq
      rcases hcompat with ⟨w, hw⟩ | ⟨w, hw⟩
      · rw [matchStr_shape, hm2] at hw
        simp only [List.append_assoc, List.cons_append,
          List.singleton_append] at hw
        obtain ⟨hpA, _, hz⟩ := quote_split_eq pre' q1 (mid' ++ [q2]) A' qL
          (B ++ (qR :: w)) hpq hA'q hq1 hqL hw
        obtain ⟨hmB, _, _⟩ := quote_split_eq mid' q2 [] B qR w
          hmq hBq hq2 hqR (by simpa using hz)
        exact hne hmB
      · rw [hm2, matchStr_shape] at hw
        simp only [List.append_assoc, List.cons_append,
          List.singleton_append] at hw
        obtain ⟨hAp, _, hz⟩ := quote_split_eq A' qL (B ++ [qR]) pre' q1
          (mid' ++ (q2 :: w)) hA'q hpq hqL hq1 hw
        obtain ⟨hBm, _, _⟩ := quote_split_eq B qR [] mid' q2 w
          hBq hmq hqR hq2 (by simpa using hz)
        exact hne hBm.symm
    · have hB'q : noQuote B' = true := noQuote_sufx hB' hBq
      rcases hcompat with ⟨w, hw⟩ | ⟨w, hw⟩
      · rw [matchStr_shape, hm2] at hw
        simp only [List.append_assoc, List.cons_append,
          List.singleton_append] at hw
        obtain ⟨hpB, _, _⟩ := quote_split_eq pre' q1 (mid' ++ [q2]) B' qR w
          hpq hB'q hq1 hqR hw
        refine hendP ?_
        rw [hpB]
        exact hB'
      · rw [hm2, matchStr_shape] at hw
        simp only [List.append_assoc, List.cons_append,
          List.singleton_append] at hw
        obtain ⟨hBp, _, hz⟩ := quote_split_eq B' qR [] pre' q1
          (mid' ++ (q2 :: w)) hB'q hpq hqR hq1 hw
        exact absurd hz.symm (by simp)

theorem prefxB_iff : ∀ u v : List Char, prefxB u v = true ↔ isPrefx u v := by
  intro u
  induction u with
  | nil =>
    intro v
    simp [prefxB, isPrefx]
  | cons a u ih =>
    intro v
    cases v with
    | nil =>
      simp only [prefxB, isPrefx]
      constructor
      · intro h
        exact absurd h (by simp)
      · rintro ⟨w, hw⟩
        exact absurd hw (by simp)
    | cons b v =>
      simp only [prefxB, Bool.and_eq_true, decide_eq_true_eq, ih v]
      constructor
      · rintro ⟨rfl, w, rfl⟩
        exact ⟨w, rfl⟩
      · rintro ⟨w, hw⟩
        simp only [List.cons_append, List.cons.injEq] at hw
        exact ⟨hw.1.symm, w, hw.2⟩

theorem sufxB_iff (u v : List Char) : sufxB u v = true ↔ isSufx u v := by
  rw [sufxB, prefxB_iff]
  constructor
  · rintro ⟨w, hw⟩
    refine ⟨w.reverse, ?_⟩
    have := congrArg List.reverse hw
    simpa using this
  · rintro ⟨w, rfl⟩
    exact ⟨w.reverse, by simp⟩

theorem sufxB_false {u v : List Char} (h : sufxB u v = false) :
    ¬ isSufx u v := by
  intro hh
  rw [← sufxB_iff] at hh
  rw [h] at hh
  exact Bool.false_ne_true hh

theorem pathOk_of {f : List Char}
    (h : noQuote f = true ∧ sufxB srcPre f = false ∧ sufxB hrefPre f = false) :
    pathOk f :=
  ⟨h.1, sufxB_false h.2.1, sufxB_false h.2.2⟩

theorem badFor_attr {pre1 pre2 o2 b2 : List Char}
    (h1 : pre1 = srcPre ∨ pre1 = hrefPre)
    (h2 : pre2 = srcPre ∨ pre2 = hrefPre)
    (ho : pathOk o2) (hb : pathOk b2) (hne : o2 ≠ b2) :
    ¬ BadFor pre2 o2 (pre1 ++ ('"' :: (b2 ++ ['"']))) := by
  refine not_badFor ?_ ?_ ho.1 hb.1 (by decide) (by decide) hne ?_ ?_
  · rcases h2 with rfl | rfl <;> decide
  · rcases h1 with rfl | rfl <;> decide
  · rcases h1 with rfl | rfl
    · exact ho.2.1
    · exact ho.2.2
  · rcases h2 with rfl | rfl
    · exact hb.2.1
    · exact hb.2.2

theorem stepAttr_repl_shape (pre : List Char) (b : String) :
    pre ++ '"' :: b.data ++ ['"'] = pre ++ ('"' :: (b.data ++ ['"'])) := by
  simp

theorem stepAttr_preserves {pre1 : List Char} {o1 b1 : String}
    {st : List Char × Bool} {pre2 o2 : List Char}
    (hbad : ¬ BadFor pre2 o2 (pre1 ++ ('"' :: (b1.data ++ ['"']))))
    (h : hasMatch pre2 o2 st.1 = false) :
    hasMatch pre2 o2 (stepAttr pre1 o1 b1 st).1 = false := by
  unfold stepAttr
  by_cases hm : hasMatch pre1 o1.data st.1 = true
  · rw [if_pos hm]
    show hasMatch pre2 o2 (scanRepl pre1 o1.data
      (pre1 ++ '"' :: b1.data ++ ['"']) st.1) = false
    rw [stepAttr_repl_shape]
    exact scanRepl_preserves_no_match hbad h
  · rw [if_neg hm]
    exact h

theorem stepAttr_self {pre1 : List Char} {o1 b1 : String}
    {st : List Char × Bool}
    (hbad : ¬ BadFor pre1 o1.data (pre1 ++ ('"' :: (b1.data ++ ['"'])))) :
    hasMatch pre1 o1.data (stepAttr pre1 o1 b1 st).1 = false := by
  unfold stepAttr
  by_cases hm : hasMatch pre1 o1.data st.1 = true
  · rw [if_pos hm]
    show hasMatch pre1 o1.data (scanRepl pre1 o1.data
      (pre1 ++ '"' :: b1.data ++ ['"']) st.1) = false
    rw [stepAttr_repl_shape]
    exact scanRepl_self_no_match hbad st.1
  · rw [if_neg hm]
    exact Bool.eq_false_iff.mpr hm

theorem pass_preserves (hd : List String) {pre2 o2 : List Char} :
    ∀ (bs : List BuildResult) (st : List Char × Bool),
    (∀ b ∈ bs, ∀ bf ∈ builtForms hd b, pathOk bf ∧ o2 ≠ bf) →
    (pre2 = srcPre ∨ pre2 = hrefPre) → pathOk o2 →
    hasMatch pre2 o2 st.1 = false →
    hasMatch pre2 o2 (updateHtmlText hd bs st).1 = false := by
  intro bs
  induction bs with
  | nil =>
    intro st _ _ _ h
    exact h
  | cons b0 rest ih =>
    intro st hbf h2 ho h
    have hbR : pathOk b0.builtPath.data ∧ o2 ≠ b0.builtPath.data :=
      hbf b0 (by simp) b0.builtPath.data (by simp [builtForms])
    have hbD : pathOk (docRelative hd b0.builtPath).data ∧
        o2 ≠ (docRelative hd b0.builtPath).data :=
      hbf b0 (by simp) (docRelative hd b0.builtPath).data
        (by simp [builtForms])
    have h1 : hasMatch pre2 o2 (stepAttr srcPre b0.originalPath
        b0.builtPath st).1 = false :=
      stepAttr_preserves
        (badFor_attr (Or.inl rfl) h2 ho hbR.1 hbR.2) h
    have h2' : hasMatch pre2 o2 (stepAttr hrefPre b0.originalPath
        b0.builtPath (stepAttr srcPre b0.originalPath b0.builtPath st)).1 =
        false :=
      stepAttr_preserves
        (badFor_attr (Or.inr rfl) h2 ho hbR.1 hbR.2) h1
    have h3 : hasMatch pre2 o2 (stepAttr srcPre
        (docRelative hd b0.originalPath) (docRelative hd b0.builtPath)
        (stepAttr hrefPre b0.originalPath b0.builtPath
          (stepAttr srcPre b0.originalPath b0.builtPath st))).1 = false :=
      stepAttr_preserves
        (badFor_attr (Or.inl rfl) h2 ho hbD.1 hbD.2) h2'
    have h4 : hasMatch pre2 o2 (stepAttr hrefPre
        (docRelative hd b0.originalPath) (docRelative hd b0.builtPath)
        (stepAttr srcPre (docRelative hd b0.originalPath)
          (docRelative hd b0.builtPath)
          (stepAttr hrefPre b0.originalPath b0.builtPath
            (stepAttr srcPre b0.originalPath b0.builtPath st)))).1 = false :=
      stepAttr_preserves
        (badFor_attr (Or.inr rfl) h2 ho hbD.1 hbD.2) h3
    exact ih _ (fun b hb bf hbfm => hbf b (by simp [hb]) bf hbfm) h2 ho h4

theorem perB_establishes (hd : List String) (b : BuildResult)
    (st : List Char × Bool)
    (hall : ∀ f ∈ origForms hd b ++ builtForms hd b, pathOk f)
    (hcross : ∀ o ∈ origForms hd b, ∀ bf ∈ builtForms hd b, o ≠ bf) :
    ∀ pre2, (pre2 = srcPre ∨ pre2 = hrefPre) → ∀ o ∈ origForms hd b,
    hasMatch pre2 o
      ((pathsToTry hd b).foldl (fun st ob => stepPair ob st) st).1 = false := by
  have hoR : pathOk b.originalPath.data :=
    hall _ (by simp [origForms])
  have hoD : pathOk (docRelative hd b.originalPath).data :=
    hall _ (by simp [origForms])
  have hbR : pathOk b.builtPath.data :=
    hall _ (by simp [origForms, builtForms])
  have hbD : pathOk (docRelative hd b.builtPath).data :=
    hall _ (by simp [origForms, builtForms])
  have hneRR : b.originalPath.data ≠ b.builtPath.data :=
    hcross _ (by simp [origForms]) _ (by simp [builtForms])
  have hneRD : b.originalPath.data ≠ (docRelative hd b.builtPath).data :=
    hcross _ (by simp [origForms]) _ (by simp [builtForms])
  have hneDR : (docRelative hd b.originalPath).data ≠ b.builtPath.data :=
    hcross _ (by simp [origForms]) _ (by simp [builtForms])
  have hneDD : (docRelative hd b.originalPath).data ≠
      (docRelative hd b.builtPath).data :=
    hcross _ (by simp [origForms]) _ (by simp [builtForms])
  set st1 := stepAttr srcPre b.originalPath b.builtPath st with hst1
  set st2 := stepAttr hrefPre b.originalPath b.builtPath st1 with hst2
  set st3 := stepAttr srcPre (docRelative hd b.originalPath)
    (docRelative hd b.builtPath) st2 with hst3
  set st4 := stepAttr hrefPre (docRelative hd b.originalPath)
    (docRelative hd b.builtPath) st3 with hst4
  have hfold : (pathsToTry hd b).foldl (fun st ob => stepPair ob st) st =
      st4 := rfl
  have hA1 : hasMatch srcPre b.originalPath.data st1.1 = false :=
    stepAttr_self (badFor_attr (Or.inl rfl) (Or.inl rfl) hoR hbR hneRR)
  have hA2 : hasMatch srcPre b.originalPath.data st2.1 = false :=
    stepAttr_preserves
      (badFor_attr (Or.inr rfl) (Or.inl rfl) hoR hbR hneRR) hA1
  have hA3 : hasMatch srcPre b.originalPath.data st3.1 = false :=
    stepAttr_preserves
      (badFor_attr (Or.inl rfl) (Or.inl rfl) hoR hbD hneRD) hA2
  have hA4 : hasMatch srcPre b.originalPath.data st4.1 = false :=
    stepAttr_preserves
      (badFor_attr (Or.inr rfl) (Or.inl rfl) hoR hbD hneRD) hA3
  have hB2 : hasMatch hrefPre b.originalPath.data st2.1 = false :=
    stepAttr_self (badFor_attr (Or.inr rfl) (Or.inr rfl) hoR hbR hneRR)
  have hB3 : hasMatch hrefPre b.originalPath.data st3.1 = false :=
    stepAttr_preserves
      (badFor_attr (Or.inl rfl) (Or.inr rfl) hoR hbD hneRD) hB2
  have hB4 : hasMatch hrefPre b.originalPath.data st4.1 = false :=
    stepAttr_preserves
      (badFor_attr (Or.inr rfl) (Or.inr rfl) hoR hbD hneRD) hB3
  have hC3 : hasMatch srcPre (docRelative hd b.originalPath).data st3.1 =
      false :=
    stepAttr_self (badFor_attr (Or.inl rfl) (Or.inl rfl) hoD hbD hneDD)
  have hC4 : hasMatch srcPre (docRelative hd b.originalPath).data st4.1 =
      false :=
    stepAttr_preserves
      (badFor_attr (Or.inr rfl) (Or.inl rfl) hoD hbD hneDD) hC3
  have hD4 : hasMatch hrefPre (docRelative hd b.originalPath).data st4.1 =
      false :=
    stepAttr_self (badFor_attr (Or.inr rfl) (Or.inr rfl) hoD hbD hneDD)
  intro pre2 hpre2 o ho
  rw [hfold]
  rcases List.mem_cons.mp ho with rfl | ho2
  · rcases hpre2 with rfl | rfl
    · exact hA4
    · exact hB4
  · have ho3 : o = (docRelative hd b.originalPath).data := by
      simpa [origForms] using ho2
    subst ho3
    rcases hpre2 with rfl | rfl
    · exact hC4
    · exact hD4

theorem pass_all_no_match (hd : List String) :
    ∀ (bs : List BuildResult) (st : List Char × Bool), FormsOk hd bs →
    ∀ b ∈ bs, ∀ o ∈ origForms hd b,
    ∀ pre2, (pre2 = srcPre ∨ pre2 = hrefPre) →
    hasMatch pre2 o (updateHtmlText hd bs st).1 = false := by
  intro bs
  induction bs with
  | nil =>
    intro st _ b hb
    simp at hb
  | cons b0 rest ih =>
    intro st hok b hb o ho pre2 hpre2
    have hok_rest : FormsOk hd rest := by
      constructor
      · intro b' hb' f hf
        exact hok.1 b' (by simp [hb']) f hf
      · intro b' hb' b'' hb'' o' ho' bl hbl
        exact hok.2 b' (by simp [hb']) b'' (by simp [hb'']) o' ho' bl hbl
    have hstep : updateHtmlText hd (b0 :: rest) st =
        updateHtmlText hd rest
          ((pathsToTry hd b0).foldl (fun st ob => stepPair ob st) st) := rfl
    rw [hstep]
    rcases List.mem_cons.mp hb with rfl | hbr
    · have hest := perB_establishes hd b st
        (fun f hf => pathOk_of (hok.1 b (by simp) f hf))
        (fun o' ho' bf hbf => hok.2 b (by simp) b (by simp) o' ho' bf hbf)
        pre2 hpre2 o ho
      refine pass_preserves hd rest _ ?_ hpre2 ?_ hest
      · intro b' hb' bf hbf
        refine ⟨pathOk_of (hok.1 b' (by simp [hb'])
          bf (by simp [origForms, builtForms] at hbf ⊢; tauto)), ?_⟩
        exact hok.2 b (by simp) b' (by simp [hb']) o ho bf hbf
      · exact pathOk_of (hok.1 b (by simp) o
          (List.mem_append.mpr (Or.inl ho)))
    · exact ih _ hok_rest b hbr o ho pre2 hpre2

theorem stepAttr_id {pre1 : List Char} {o1 b1 : String} {c : List Char}
    {u : Bool} (h : hasMatch pre1 o1.data c = false) :
    stepAttr pre1 o1 b1 (c, u) = (c, u) := by
  unfold stepAttr
  rw [if_neg]
  simp [h]

theorem pass2_id (hd : List String) :
    ∀ (bs : List BuildResult) (c : List Char) (u : Bool),
    (∀ b ∈ bs, ∀ o ∈ origForms hd b,
      hasMatch srcPre o c = false ∧ hasMatch hrefPre o c = false) →
    updateHtmlText hd bs (c, u) = (c, u) := by
  intro bs
  induction bs with
  | nil =>
    intro c u _
    rfl
  | cons b0 rest ih =>
    intro c u hno
    have hoR := hno b0 (by simp) b0.originalPath.data (by simp [origForms])
    have hoD := hno b0 (by simp) (docRelative hd b0.originalPath).data
      (by simp [origForms])
    have hstep : updateHtmlText hd (b0 :: rest) (c, u) =
        updateHtmlText hd rest
          ((pathsToTry hd b0).foldl (fun st ob => stepPair ob st) (c, u)) :=
      rfl
    have hfold : (pathsToTry hd b0).foldl (fun st ob => stepPair ob st)
        (c, u) = (c, u) := by
      show stepAttr hrefPre (docRelative hd b0.originalPath)
        (docRelative hd b0.builtPath)
        (stepAttr srcPre (docRelative hd b0.originalPath)
          (docRelative hd b0.builtPath)
          (stepAttr hrefPre b0.originalPath b0.builtPath
            (stepAttr srcPre b0.originalPath b0.builtPath (c, u)))) = (c, u)
      rw [stepAttr_id hoR.1, stepAttr_id hoR.2, stepAttr_id hoD.1,
        stepAttr_id hoD.2]
    rw [hstep, hfold]
    exact ih c u fun b hb o ho => hno b (by simp [hb]) o ho

/-- Claim C7 counterexample: with the mapping set
`[b.js → c.js, a.js → b.js]` one mapping's built path equals another's
original path, so the second run of the HTML substitution pass changes
the text again (`src="a.js"` becomes `src="b.js"` after the first pass
and `src="c.js"` after the second) — the claim is false for arbitrary
mapping sets. -/
theorem c7_counterexample :
    (updateHtmlText [] [⟨"b.js", "c.js"⟩, ⟨"a.js", "b.js"⟩]
      ((updateHtmlText [] [⟨"b.js", "c.js"⟩, ⟨"a.js", "b.js"⟩]
        ("src=\"a.js\"".data, false)).1, false)).1 ≠
    (updateHtmlText [] [⟨"b.js", "c.js"⟩, ⟨"a.js", "b.js"⟩]
      ("src=\"a.js\"".data, false)).1 := by
  decide

/-- Claim C7 (amended): for every HTML text and every mapping set whose
path forms (root-relative and document-relative, originals and builts)
contain no quote characters, do not end in the literals `src=` or
`href=`, and in which no original form equals any built form, applying
the rewriter's substitution pass a second time changes nothing: after
the first pass no `src`/`href` pattern of any mapping matches. -/
theorem c7_html_rewrite_idempotent (hd : List String)
    (bs : List BuildResult) (c : List Char) (hok : FormsOk hd bs) :
    updateHtmlText hd bs ((updateHtmlText hd bs (c, false)).1, false) =
      ((updateHtmlText hd bs (c, false)).1, false) := by
  apply pass2_id
  intro b hb o ho
  exact ⟨pass_all_no_match hd bs (c, false) hok b hb o ho srcPre (Or.inl rfl),
    pass_all_no_match hd bs (c, false) hok b hb o ho hrefPre (Or.inr rfl)⟩

theorem c7_witness :
    updateHtmlText [] [⟨"main.js", "build/main.js"⟩]
      ((updateHtmlText [] [⟨"main.js", "build/main.js"⟩]
        ("<script src='main.js'></script>".data, false)).1, false) =
      ((updateHtmlText [] [⟨"main.js", "build/main.js"⟩]
        ("<script src='main.js'></script>".data, false)).1, false) :=
  c7_html_rewrite_idempotent [] [⟨"main.js", "build/main.js"⟩]
    "<script src='main.js'></script>".data (by unfold FormsOk; decide)

theorem noQuote_cons {c : Char} {u : List Char} :
    noQuote (c :: u) = true ↔ isQuote c = false ∧ noQuote u = true := by
  simp [noQuote]

theorem matchAt_head_nonquote {o : List Char} {c : Char} {t : List Char}
    (hc : isQuote c = false) : matchAt [] o (c :: t) = none := by
  simp [matchAt, splitPre, hc]

theorem scan_noquote_append {o R : List Char} :
    ∀ {u : List Char} (v : List Char), noQuote u = true →
    scanRepl [] o R (u ++ v) = u ++ scanRepl [] o R v := by
  intro u
  induction u with
  | nil =>
    intro v _
    simp
  | cons c u ih =>
    intro v hu
    obtain ⟨hc, hu'⟩ := noQuote_cons.mp hu
    rw [List.cons_append, scanRepl_keep R (matchAt_head_nonquote hc),
      ih v hu']
    rfl

theorem hasMatch_noquote_append {o : List Char} :
    ∀ {u : List Char} (v : List Char), noQuote u = true →
    hasMatch [] o (u ++ v) = hasMatch [] o v := by
  intro u
  induction u with
  | nil =>
    intro v _
    simp
  | cons c u ih =>
    intro v hu
    obtain ⟨hc, hu'⟩ := noQuote_cons.mp hu
    rw [List.cons_append, hasMatch, matchAt_head_nonquote hc, ih v hu']
    simp

theorem matchAt_token_ne {o tok rest : List Char} {q1 q2 : Char}
    (hq1 : isQuote q1 = true) (hq2 : isQuote q2 = true)
    (ho : noQuote o = true) (htok : noQuote tok = true) (hne : tok ≠ o) :
    matchAt [] o (q1 :: (tok ++ (q2 :: rest))) = none := by
  have hred : matchAt [] o (q1 :: (tok ++ (q2 :: rest))) =
      (match splitPre o (tok ++ (q2 :: rest)) with
       | none => none
       | some [] => none
       | some (x :: r) => if isQuote x then some r else none) := by
    simp [matchAt, splitPre, hq1]
  rw [hred]
  cases hsp : splitPre o (tok ++ (q2 :: rest)) with
  | none => rfl
  | some t2 =>
    cases t2 with
    | nil => rfl
    | cons x r =>
      by_cases hx : isQuote x = true
      · exfalso
        have heq := splitPre_eq_some hsp
        obtain ⟨hto, _, _⟩ := quote_split_eq tok q2 rest o x r
          htok ho hq2 hx heq
        exact hne hto
      · simp [Bool.eq_false_iff.mpr hx]

theorem matchAt_sep_ne {o sep rest' : List Char} {q : Char}
    (hq : isQuote q = true) (ho : noQuote o = true)
    (hsep : noQuote sep = true) (hne : sep ≠ o)
    (hrest : rest' = [] ∨ ∃ q1' t', rest' = q1' :: t' ∧ isQuote q1' = true) :
    matchAt [] o (q :: (sep ++ rest')) = none := by
  have hred : matchAt [] o (q :: (sep ++ rest')) =
      (match splitPre o (sep ++ rest') with
       | none => none
       | some [] => none
       | some (x :: r) => if isQuote x then some r else none) := by
    simp [matchAt, splitPre, hq]
  rw [hred]
  cases hsp : splitPre o (sep ++ rest') with
  | none => rfl
  | some t2 =>
    cases t2 with
    | nil => rfl
    | cons x r =>
      by_cases hx : isQuote x = true
      · exfalso
        have heq := splitPre_eq_some hsp
        rcases append_eq_prefixCompat sep o heq with ⟨s', hs'⟩ | ⟨o', ho'⟩
        · cases s' with
          | nil =>
            rw [List.append_nil] at hs'
            exact hne hs'.symm
          | cons cc s'' =>
            rw [hs'] at heq
            rw [List.append_assoc] at heq
            have htl := List.append_cancel_left heq
            rcases hrest with rfl | ⟨q1', t', hrt, hq1'⟩
            · simp at htl
            · rw [hrt] at htl
              simp only [List.cons_append, List.cons.injEq] at htl
              have hcq : isQuote cc = false := by
                refine noQuote_mem ho ?_
                rw [hs']
                simp
              have hq1c : isQuote cc = true := htl.1 ▸ hq1'
              rw [hcq] at hq1c
              exact Bool.false_ne_true hq1c
        · cases o' with
          | nil =>
            rw [List.append_nil] at ho'
            exact hne ho'
          | cons cc o'' =>
            rw [ho'] at heq
            rw [List.append_assoc] at heq
            have htl := List.append_cancel_left heq
            simp only [List.cons_append, List.cons.injEq] at htl
            have hcq : isQuote cc = false :=
              noQuote_mem (ho' ▸ hsep) (by simp)
            rw [htl.1] at hcq
            rw [hcq] at hx
            exact Bool.false_ne_true hx
      · simp [Bool.eq_false_iff.mpr hx]

theorem assembleItems_cons (it : MToken) (items : List MToken) :
    assembleItems (it :: items) =
      it.q1 :: (it.tok ++ (it.q2 :: (it.sep ++ assembleItems items))) := by
  simp [assembleItems]

theorem assembleItems_shape (items : List MToken) (hok : itemsOk items) :
    assembleItems items = [] ∨
    ∃ q t, assembleItems items = q :: t ∧ isQuote q = true := by
  cases items with
  | nil => exact Or.inl rfl
  | cons it items =>
    right
    exact ⟨it.q1, _, assembleItems_cons it items, (hok it (by simp)).1⟩

theorem substTok_sep (o bp : List Char) (it : MToken) :
    (substTok o bp it).sep = it.sep := by
  unfold substTok
  split <;> rfl

theorem substAll_sep (bs : List BuildResult) :
    ∀ it : MToken, (substAll bs it).sep = it.sep := by
  induction bs with
  | nil => intro it; rfl
  | cons b bs ih =>
    intro it
    show (substAll bs (substTok b.originalPath.data b.builtPath.data it)).sep
      = it.sep
    rw [ih, substTok_sep]

theorem scan_assemble_items (o bp : List Char) (ho : noQuote o = true) :
    ∀ (items : List MToken), itemsOk items → (∀ it ∈ items, it.sep ≠ o) →
    scanRepl [] o ('\'' :: bp ++ ['\'']) (assembleItems items) =
      assembleItems (items.map (substTok o bp)) := by
  intro items
  induction items with
  | nil =>
    intro _ _
    rfl
  | cons it items ih =>
    intro hok hsep
    obtain ⟨hq1, hq2, htokq, hsepq⟩ := hok it (by simp)
    have hokt : itemsOk items := fun x hx => hok x (by simp [hx])
    have hsept : ∀ x ∈ items, x.sep ≠ o := fun x hx => hsep x (by simp [hx])
    rw [assembleItems_cons]
    by_cases htok : it.tok = o
    · have hmat : matchAt [] o
          (it.q1 :: (it.tok ++ (it.q2 :: (it.sep ++ assembleItems items)))) =
          some (it.sep ++ assembleItems items) := by
        rw [htok]
        have hms := matchAt_matchStr [] o (it.sep ++ assembleItems items)
          hq1 hq2
        simpa [matchStr] using hms
      rw [scanRepl_match _ hmat, scan_noquote_append _ hsepq, ih hokt hsept,
        List.map_cons, assembleItems_cons]
      have hsubst : substTok o bp it = ⟨'\'', bp, '\'', it.sep⟩ := by
        simp [substTok, htok]
      rw [hsubst]
      simp
    · have hmat : matchAt [] o
          (it.q1 :: (it.tok ++ (it.q2 :: (it.sep ++ assembleItems items)))) =
          none := matchAt_token_ne hq1 hq2 ho htokq htok
      rw [scanRepl_keep _ hmat, scan_noquote_append _ htokq]
      have hmat2 : matchAt [] o (it.q2 :: (it.sep ++ assembleItems items)) =
          none :=
        matchAt_sep_ne hq2 ho hsepq (hsep it (by simp))
          (assembleItems_shape items hokt)
      rw [scanRepl_keep _ hmat2, scan_noquote_append _ hsepq, ih hokt hsept,
        List.map_cons, assembleItems_cons]
      have hsubst : substTok o bp it = it := by
        simp [substTok, htok]
      rw [hsubst]

theorem updateManifest_assemble :
    ∀ (bs : List BuildResult) (p0 : List Char) (items : List MToken),
    noQuote p0 = true → itemsOk items →
    (∀ b ∈ bs, noQuote b.originalPath.data = true ∧
      noQuote b.builtPath.data = true) →
    (∀ it ∈ items, ∀ b ∈ bs, it.sep ≠ b.originalPath.data) →
    updateManifestText bs (assemble p0 items) =
      assemble p0 (items.map (substAll bs)) := by
  intro bs
  induction bs with
  | nil =>
    intro p0 items _ _ _ _
    show assemble p0 items = assemble p0 (items.map (substAll []))
    have hmap : ∀ its : List MToken, its.map (substAll []) = its := by
      intro its
      induction its with
      | nil => rfl
      | cons x xs ihx => simp [substAll, ihx]
    rw [hmap]
  | cons b bs ih =>
    intro p0 items hp0 hok hq hsep
    have hqb := hq b (by simp)
    show updateManifestText bs (applyManifestMapping b (assemble p0 items)) = _
    have h1 : applyManifestMapping b (assemble p0 items) =
        assemble p0
          (items.map (substTok b.originalPath.data b.builtPath.data)) := by
      unfold applyManifestMapping manifestRepl assemble
      rw [scan_noquote_append _ hp0,
        scan_assemble_items b.originalPath.data b.builtPath.data hqb.1 items
          hok (fun it hit => hsep it hit b (by simp))]
    rw [h1]
    rw [ih p0 (items.map (substTok b.originalPath.data b.builtPath.data)) hp0
      ?_ ?_ ?_]
    case _ =>
      rw [List.map_map]
      rfl
    case _ =>
      intro x hx
      obtain ⟨it, hit, rfl⟩ := List.mem_map.mp hx
      obtain ⟨h1', h2', h3', h4'⟩ := hok it hit
      by_cases htok : it.tok = b.originalPath.data
      · have hsubst : substTok b.originalPath.data b.builtPath.data it =
            ⟨'\'', b.builtPath.data, '\'', it.sep⟩ := by
          simp [substTok, htok]
        rw [hsubst]
        exact ⟨rfl, rfl, hqb.2, h4'⟩
      · have hsubst : substTok b.originalPath.data b.builtPath.data it =
            it := by
          simp [substTok, htok]
        rw [hsubst]
        exact ⟨h1', h2', h3', h4'⟩
    case _ =>
      intro b' hb'
      exact hq b' (by simp [hb'])
    case _ =>
      intro x hx b' hb'
      obtain ⟨it, hit, rfl⟩ := List.mem_map.mp hx
      rw [substTok_sep]
      exact hsep it hit b' (by simp [hb'])

theorem substAll_ok :
    ∀ (bs : List BuildResult),
    (∀ b ∈ bs, noQuote b.builtPath.data = true) →
    ∀ it : MToken, isQuote it.q1 = true → isQuote it.q2 = true →
    noQuote it.tok = true → noQuote it.sep = true →
    isQuote (substAll bs it).q1 = true ∧ isQuote (substAll bs it).q2 = true ∧
    noQuote (substAll bs it).tok = true ∧
    noQuote (substAll bs it).sep = true := by
  intro bs
  induction bs with
  | nil =>
    intro _ it h1 h2 h3 h4
    exact ⟨h1, h2, h3, h4⟩
  | cons b bs ih =>
    intro hq it h1 h2 h3 h4
    have hqt : ∀ b' ∈ bs, noQuote b'.builtPath.data = true :=
      fun b' hb' => hq b' (by simp [hb'])
    have hcons : substAll (b :: bs) it =
        substAll bs (substTok b.originalPath.data b.builtPath.data it) := rfl
    rw [hcons]
    by_cases htok : it.tok = b.originalPath.data
    · have hsubst : substTok b.originalPath.data b.builtPath.data it =
          ⟨'\'', b.builtPath.data, '\'', it.sep⟩ := by
        simp [substTok, htok]
      rw [hsubst]
      exact ih hqt ⟨'\'', b.builtPath.data, '\'', it.sep⟩ rfl rfl
        (hq b (by simp)) h4
    · have hsubst : substTok b.originalPath.data b.builtPath.data it = it := by
        simp [substTok, htok]
      rw [hsubst]
      exact ih hqt it h1 h2 h3 h4

theorem substAll_tok_notin (O : List (List Char)) :
    ∀ (bs : List BuildResult) (it : MToken),
    (∀ b ∈ bs, b.builtPath.data ∉ O) →
    (substAll bs it).tok ∉ O ∨
    ((substAll bs it).tok = it.tok ∧
      ∀ b ∈ bs, it.tok ≠ b.originalPath.data) := by
  intro bs
  induction bs with
  | nil =>
    intro it _
    exact Or.inr ⟨rfl, by simp⟩
  | cons b bs ih =>
    intro it hb
    have hbt : ∀ b' ∈ bs, b'.builtPath.data ∉ O :=
      fun b' hb' => hb b' (by simp [hb'])
    have hcons : substAll (b :: bs) it =
        substAll bs (substTok b.originalPath.data b.builtPath.data it) := rfl
    rw [hcons]
    by_cases htok : it.tok = b.originalPath.data
    · have hsubst : substTok b.originalPath.data b.builtPath.data it =
          ⟨'\'', b.builtPath.data, '\'', it.sep⟩ := by
        simp [substTok, htok]
      rw [hsubst]
      rcases ih ⟨'\'', b.builtPath.data, '\'', it.sep⟩ hbt with h1 | ⟨h2, _⟩
      · exact Or.inl h1
      · left
        rw [h2]
        exact hb b (by simp)
    · have hsubst : substTok b.originalPath.data b.builtPath.data it =
          it := by
        simp [substTok, htok]
      rw [hsubst]
      rcases ih it hbt with h1 | ⟨h2, h3⟩
      · exact Or.inl h1
      · right
        refine ⟨h2, ?_⟩
        intro b' hb'
        rcases List.mem_cons.mp hb' with rfl | hb''
        · exact htok
        · exact h3 b' hb''

theorem no_match_assembleItems (o : List Char) (ho : noQuote o = true) :
    ∀ (items : List MToken), itemsOk items →
    (∀ it ∈ items, it.tok ≠ o ∧ it.sep ≠ o) →
    hasMatch [] o (assembleItems items) = false := by
  intro items
  induction items with
  | nil =>
    intro _ _
    rfl
  | cons it items ih =>
    intro hok hcond
    obtain ⟨hq1, hq2, htokq, hsepq⟩ := hok it (by simp)
    obtain ⟨htne, hsne⟩ := hcond it (by simp)
    have hokt : itemsOk items := fun x hx => hok x (by simp [hx])
    rw [assembleItems_cons, hasMatch,
      matchAt_token_ne hq1 hq2 ho htokq htne]
    simp only [Option.isSome_none, Bool.false_or]
    rw [hasMatch_noquote_append _ htokq, hasMatch,
      matchAt_sep_ne hq2 ho hsepq hsne (assembleItems_shape items hokt)]
    simp only [Option.isSome_none, Bool.false_or]
    rw [hasMatch_noquote_append _ hsepq]
    exact ih hokt fun x hx => hcond x (by simp [hx])

/-- Claim C6 counterexample: with the single realistic mapping
`a.js → build/a.js` and the manifest text `"a.js"a.js'`, the two quoted
occurrences share their middle quote; the scan replaces the first and
the replacement's closing quote re-creates a quoted occurrence with the
overlapping second one, so the rewritten text still contains `'a.js'` —
the claim's "zero occurrences remain" fails. -/
theorem c6_counterexample :
    hasMatch [] "a.js".data
      (updateManifestText [⟨"a.js", "build/a.js"⟩]
        ("\"a.js\"a.js'".data)) = true := by
  decide

/-- Claim C6 (amended): for a well-delimited manifest (quote-free plain
text between properly quoted, quote-free tokens), whose separators never
equal an original path and in which no built path equals any original
path, after the rewriter has run no quoted occurrence of any mapping's
original path remains. -/
theorem c6_no_original_remains (p0 : List Char) (items : List MToken)
    (bs : List BuildResult) (b : BuildResult) (hb : b ∈ bs)
    (hp0 : noQuote p0 = true) (hitems : itemsOk items)
    (hpaths : ∀ b' ∈ bs, noQuote b'.originalPath.data = true ∧
      noQuote b'.builtPath.data = true)
    (hsep : ∀ it ∈ items, ∀ b' ∈ bs, it.sep ≠ b'.originalPath.data)
    (hbuilt : ∀ b' ∈ bs, ∀ b'' ∈ bs,
      b'.builtPath.data ≠ b''.originalPath.data) :
    hasMatch [] b.originalPath.data
      (updateManifestText bs (assemble p0 items)) = false := by
  rw [updateManifest_assemble bs p0 items hp0 hitems hpaths hsep]
  unfold assemble
  rw [hasMatch_noquote_append _ hp0]
  refine no_match_assembleItems _ (hpaths b hb).1 _ ?_ ?_
  · intro x hx
    obtain ⟨it, hit, rfl⟩ := List.mem_map.mp hx
    obtain ⟨h1, h2, h3, h4⟩ := hitems it hit
    exact substAll_ok bs (fun b' hb' => (hpaths b' hb').2) it h1 h2 h3 h4
  · intro x hx
    obtain ⟨it, hit, rfl⟩ := List.mem_map.mp hx
    constructor
    · have hbO : ∀ b' ∈ bs, b'.builtPath.data ∉
          (bs.map fun b'' => b''.originalPath.data) := by
        intro b' hb' hmem
        obtain ⟨b'', hb'', heq⟩ := List.mem_map.mp hmem
        exact hbuilt b' hb' b'' hb'' heq.symm
      rcases substAll_tok_notin (bs.map fun b'' => b''.originalPath.data)
          bs it (fun b' hb' => hbO b' hb') with h1 | ⟨h2, h3⟩
      · intro hcon
        apply h1
        rw [hcon]
        exact List.mem_map.mpr ⟨b, hb, rfl⟩
      · rw [h2]
        exact h3 b hb
    · rw [substAll_sep]
      exact hsep it hit b hb

theorem c6_witness :
    hasMatch [] ("a.js" : String).data
      (updateManifestText [⟨"a.js", "build/a.js"⟩]
        (assemble ("server_script ".data)
          [⟨'\'', "a.js".data, '\'', " done".data⟩])) = false :=
  c6_no_original_remains ("server_script ".data)
    [⟨'\'', "a.js".data, '\'', " done".data⟩]
    [⟨"a.js", "build/a.js"⟩] ⟨"a.js", "build/a.js"⟩ (by decide)
    (by decide) (by unfold itemsOk; decide) (by decide) (by decide)
    (by decide)
